import Mathlib

/-! Brotli compress / decompress handlers of the file manager.

A shallow embedding of `src/handles/compress-operations.js`.

* JavaScript strings are lists of characters (`Str`); file contents are lists
  of byte values (`Bytes`).
* The filesystem is a map from path strings to nodes (regular file or
  directory).
* `node:path` is embedded in its POSIX flavour (`resolve`, `basename`,
  `dirname`, `extname`), following the algorithms of Node's `lib/path.js`.
* The Brotli transforms of `node:zlib` are a parameter (`Codec`).
* The ways a stream pipeline can fail for reasons that the filesystem map does
  not record (permissions, disk full, ...) are a parameter (`Fault`).
* `console.time` / `console.timeEnd` print wall-clock durations on stdout and
  are not part of the state.
-/

namespace FileManager

/-! ## Strings and paths -/

/-- A JavaScript string, as its sequence of characters. -/
abbrev Str := List Char

/-- File contents. -/
abbrev Bytes := List Nat

/-- The path separator test of `path.posix`. -/
def isSlash (c : Char) : Bool := c == '/'

/-- The test `code === CHAR_DOT`. -/
def isDot (c : Char) : Bool := c == '.'

/-- Splits a string at every `/`; the pieces may be empty. -/
def splitSlash : Str → List Str
  | [] => [[]]
  | c :: cs =>
    if isSlash c then [] :: splitSlash cs
    else
      match splitSlash cs with
      | [] => [[c]]
      | s :: ss => (c :: s) :: ss

/-- One round of the segment loop of `normalizeString`: `stack` holds the
segments kept so far, most recent first.  Empty segments and `.` are dropped,
`..` pops the last kept segment; when nothing can be popped it is kept only
if `allowAboveRoot`. -/
def normStep (allowAboveRoot : Bool) (stack : List Str) (seg : Str) : List Str :=
  if seg = [] ∨ seg = ['.'] then stack
  else if seg = ['.', '.'] then
    match stack with
    | [] => if allowAboveRoot then [seg] else []
    | top :: rest =>
      if top = ['.', '.'] then (if allowAboveRoot then seg :: stack else stack)
      else rest
  else seg :: stack

/-- Joins segments with `/`. -/
def joinSlash : List Str → Str
  | [] => []
  | [s] => s
  | s :: t :: ts => s ++ '/' :: joinSlash (t :: ts)

/-- The function `normalizeString(path, allowAboveRoot, '/', isPosixPathSeparator)`. -/
def normalizeString (path : Str) (allowAboveRoot : Bool) : Str :=
  joinSlash ((splitSlash path).foldl (normStep allowAboveRoot) []).reverse

/-- The right-to-left loop of `path.resolve`: the first argument lists the
paths still to visit, last first, the process working directory at the very
end; `acc` is `resolvedPath`.  Returns `resolvedPath` and `resolvedAbsolute`. -/
def resolveLoop : List Str → Str → Str × Bool
  | [], acc => (acc, false)
  | p :: ps, acc =>
    match p with
    | [] => resolveLoop ps acc
    | c :: _ =>
      if isSlash c then (p ++ '/' :: acc, true)
      else resolveLoop ps (p ++ '/' :: acc)

/-- The function `path.resolve(...args)` of `path.posix`, for a process whose
working directory is `procCwd`. -/
def resolveAll (procCwd : Str) (args : List Str) : Str :=
  match resolveLoop (args.reverse ++ [procCwd]) [] with
  | (resolvedPath, true) => '/' :: normalizeString resolvedPath false
  | (resolvedPath, false) =>
    match normalizeString resolvedPath true with
    | [] => ['.']
    | r => r

/-- The last path component, trailing slashes ignored (the scan shared by
`basename` and `extname`). -/
def lastComponent (path : Str) : Str :=
  ((path.reverse.dropWhile isSlash).takeWhile (fun c => !isSlash c)).reverse

/-- Outcome of matching a suffix backwards against a component. -/
inductive SuffixMatch where
  /-- The whole suffix matched; the reversed remainder of the component. -/
  | matched (restRev : Str)
  /-- A character differed. -/
  | mismatch
  /-- The component ended before the suffix did. -/
  | exhausted
  deriving DecidableEq, Repr

/-- Matches `sufRev` (a reversed suffix) against `compRev` (a reversed
component), as the loop of `basename(path, suffix)` does with `extIdx`. -/
def matchSuffix : Str → Str → SuffixMatch
  | compRev, [] => .matched compRev
  | [], _ :: _ => .exhausted
  | c :: cs, s :: ss => if c = s then matchSuffix cs ss else .mismatch

/-- The function `path.basename(path, suffix)` of `path.posix`; `suffix = none`
is the one-argument call. -/
def basename (path : Str) (suffix : Option Str := none) : Str :=
  match suffix with
  | none => lastComponent path
  | some suf =>
    if suf ≠ [] ∧ suf.length ≤ path.length then
      if suf = path then []
      else
        let trailRev := path.reverse.takeWhile isSlash
        let compRev := (path.reverse.dropWhile isSlash).takeWhile (fun c => !isSlash c)
        match matchSuffix compRev suf.reverse with
        | .matched [] => compRev.reverse
        | .matched (r :: rs) => (r :: rs).reverse
        | .mismatch => compRev.reverse
        | .exhausted => (trailRev ++ compRev).reverse
    else lastComponent path

/-- The function `path.extname(path)` of `path.posix`: from the last dot of the
last component on, unless there is no dot, the dot opens the component, or
the component is `..`. -/
def extname (path : Str) : Str :=
  let compRev := (path.reverse.dropWhile isSlash).takeWhile (fun c => !isSlash c)
  match compRev.dropWhile (fun c => !isDot c) with
  | [] => []
  | _ :: preRev =>
    if preRev = [] ∨ compRev = ['.', '.'] then []
    else '.' :: (compRev.takeWhile (fun c => !isDot c)).reverse

/-- The function `path.dirname(path)` of `path.posix`. -/
def dirname (path : Str) : Str :=
  match path with
  | [] => ['.']
  | c :: tail =>
    match (tail.reverse.dropWhile isSlash).dropWhile (fun c => !isSlash c) with
    | [] => if isSlash c then ['/'] else ['.']
    | _ :: beforeRev =>
      if isSlash c ∧ beforeRev = [] then ['/', '/'] else c :: beforeRev.reverse

/-! ## Filesystem, messages, promises -/

/-- What a path names: a regular file with its contents, or a directory. -/
inductive Node where
  | file (content : Bytes)
  | dir
  deriving DecidableEq, Repr

/-- A filesystem state. -/
abbrev FS := Str → Option Node

/-- The state in which `path` is a regular file with contents `content`. -/
def writeFile (fs : FS) (path : Str) (content : Bytes) : FS :=
  fun q => if q = path then some (Node.file content) else fs q

/-- The state without an entry at `path`. -/
def removeFile (fs : FS) (path : Str) : FS :=
  fun q => if q = path then none else fs q

/-- The contents of the regular file at `path`, if there is one. -/
def readFile (fs : FS) (path : Str) : Option Bytes :=
  match fs path with
  | some (Node.file content) => some content
  | _ => none

/-- Errors that a stream pipeline or `rm` can raise. -/
inductive Err where
  /-- The source could not be opened or read. -/
  | readFailed
  /-- The destination could not be opened for writing. -/
  | openFailed
  /-- The transform rejected its input. -/
  | badInput
  /-- Writing to the destination failed. -/
  | writeFailed
  /-- The call `rm(path)` on a path that does not exist. -/
  | rmNoEntry
  /-- The call `rm(path)` on a directory. -/
  | rmIsDirectory
  deriving DecidableEq, Repr

/-- One argument of an `fmMessage` call.  `failed` and `invalid` stand for the
constants `fmMessagesList.failed` and `fmMessagesList.invalid`. -/
inductive Part where
  | failed
  | invalid
  | text (s : Str)
  | error (e : Err)
  deriving DecidableEq, Repr

/-- The arguments of one `fmMessage` call. -/
abbrev Message := List Part

/-- How the promise returned by an `async` handler settles. -/
inductive Settled where
  | resolved
  | rejected (e : Err)
  deriving DecidableEq, Repr

/-- What a handler call leaves behind: the filesystem, the `fmMessage` calls
in order, and how the returned promise settled. -/
structure Outcome where
  fs : FS
  log : List Message
  settled : Settled

/-- A JavaScript promise, by the value it fulfils with. -/
structure JsPromise (α : Type) where
  value : α

/-- The expression `await p`. -/
def JsPromise.await {α : Type} (p : JsPromise α) : α := p.value

/-- The promise itself used as a condition: an object is always truthy. -/
def JsPromise.truthy {α : Type} (_p : JsPromise α) : Bool := true

/-- Modelled from the spec: `isFileUrlTruth` of `validators/isUrlTruth.js` is
not under `src/`.  The spec gives it as the existence predicate
`isExistingFile(path) -> bool`; the handlers `await` its result, so it returns
a promise of that boolean. -/
def isFileUrlTruth (fs : FS) (url : Str) : JsPromise Bool :=
  ⟨match fs url with
    | some (Node.file _) => true
    | _ => false⟩

/-- Modelled from the spec: `isDirUrlTruth` of `validators/isUrlTruth.js` is
not under `src/`.  The spec gives it as the existence predicate
`isExistingDir(path) -> bool`; the handlers `await` its result. -/
def isDirUrlTruth (fs : FS) (url : Str) : JsPromise Bool :=
  ⟨match fs url with
    | some Node.dir => true
    | _ => false⟩

/-- The promise API `rm(path)` of `node:fs/promises` without options: removes
a regular file; rejects when nothing is there or when the path is a
directory. -/
def rm (fs : FS) (path : Str) : FS × Option Err :=
  match fs path with
  | some (Node.file _) => (removeFile fs path, none)
  | some Node.dir => (fs, some Err.rmIsDirectory)
  | none => (fs, some Err.rmNoEntry)

/-! ## Streams -/

/-- The Brotli transforms of `node:zlib`.  `compress` is
`createBrotliCompress` with `BROTLI_PARAM_QUALITY = BROTLI_MIN_QUALITY`;
`decompress` is `createBrotliDecompress`, giving the bytes it emitted and
whether the input was a valid stream. -/
structure Codec where
  compress : Bytes → Bytes
  decompress : Bytes → Bytes × Bool

/-- Failures of a pipeline that the filesystem map does not determine:
the source cannot be read, the destination cannot be opened, or writing
breaks after some number of bytes. -/
structure Fault where
  readFails : Bool
  openFails : Bool
  writeFailsAfter : Option Nat
  deriving DecidableEq, Repr

/-- No failure from outside. -/
def noFault : Fault := ⟨false, false, none⟩

/-- The call `pipeline(createReadStream(src), transform, createWriteStream(dest))`.
`createWriteStream` uses its default flag `'w'`: the destination is created,
or truncated when it is already a regular file; opening a directory fails.
Returns the filesystem afterwards and the error the pipeline rejected with,
if any. -/
def pipeline (transform : Bytes → Bytes × Bool) (flt : Fault) (fs : FS)
    (src dest : Str) : FS × Option Err :=
  let destOpens : Bool := !flt.openFails && decide (fs dest ≠ some Node.dir)
  let fs1 : FS := if destOpens then writeFile fs dest [] else fs
  match (if flt.readFails then none else readFile fs1 src) with
  | none => (fs1, some Err.readFailed)
  | some data =>
    if destOpens then
      match flt.writeFailsAfter with
      | some k => (writeFile fs1 dest ((transform data).1.take k), some Err.writeFailed)
      | none =>
        (writeFile fs1 dest (transform data).1,
          if (transform data).2 then none else some Err.badInput)
    else (fs1, some Err.openFailed)

/-! ## The handlers -/

/-- What the handlers read from their surroundings: `fmSettings.currentDir`,
and the working directory of the process, which `path.resolve` falls back on;
the latter is always absolute, `'/' :: procCwdTail`. -/
structure Env where
  currentDir : Str
  procCwdTail : Str

/-- The value of `process.cwd()`. -/
def Env.procCwd (env : Env) : Str := '/' :: env.procCwdTail

/-- The two-argument call `path.resolve(a, b)`. -/
def resolve (env : Env) (a b : Str) : Str := resolveAll env.procCwd [a, b]

/-- Result of the checks a handler makes before it starts its pipeline. -/
inductive Checked where
  /-- A check failed: the messages reported before the early `return`. -/
  | abort (log : List Message)
  /-- All checks passed: the pipeline runs from `sourceFileUrl` to `destFileUrl`. -/
  | go (sourceFileUrl destFileUrl : Str)
  deriving DecidableEq, Repr

/-- Lines 23-47 of `compress`. -/
def compressCheck (env : Env) (fs : FS) (sourceFile destDir : Str) : Checked :=
  let sourceFileUrl := resolve env env.currentDir sourceFile
  if !(isFileUrlTruth fs sourceFileUrl).await then
    Checked.abort [[Part.failed], [Part.text ("No such file ".toList ++ sourceFileUrl)]]
  else
    let destDirUrl := if destDir ≠ [] then resolve env env.currentDir destDir else env.currentDir
    if destDir ≠ [] ∧ !(isDirUrlTruth fs destDirUrl).await then
      Checked.abort [[Part.invalid], [Part.text ("No such directory ".toList ++ destDirUrl)]]
    else
      let destFileName := basename sourceFileUrl ++ ".br".toList
      let destFileUrl := resolve env destDirUrl destFileName
      if (isFileUrlTruth fs destFileUrl).await then
        Checked.abort [[Part.failed],
          [Part.text ("File ".toList ++ destFileUrl), Part.text " already exists".toList]]
      else Checked.go sourceFileUrl destFileUrl

/-- Lines 49-67 of `compress`: the `try` / `catch` around the pipeline. -/
def compressRun (codec : Codec) (flt : Fault) (fs : FS) (sourceFileUrl destFileUrl : Str) :
    Outcome :=
  match pipeline (fun b => (codec.compress b, true)) flt fs sourceFileUrl destFileUrl with
  | (fs1, none) =>
    ⟨fs1, [[Part.text "Compressing, wait please...".toList],
      [Part.text "Compressing done: ".toList, Part.text destFileUrl]], Settled.resolved⟩
  | (fs1, some err) =>
    ⟨fs1, [[Part.text "Compressing, wait please...".toList], [Part.failed], [Part.error err]],
      Settled.resolved⟩

/-- The handler `compress(sourceFile, destDir = '')`. -/
def compress (codec : Codec) (flt : Fault) (env : Env) (fs : FS) (sourceFile : Str)
    (destDir : Str := []) : Outcome :=
  match compressCheck env fs sourceFile destDir with
  | Checked.abort log => ⟨fs, log, Settled.resolved⟩
  | Checked.go sourceFileUrl destFileUrl => compressRun codec flt fs sourceFileUrl destFileUrl

/-- Lines 77-104 of `decompress`.  An absent `destDir` (`undefined`) and the
empty string are both falsy and are both `[]` here. -/
def decompressCheck (env : Env) (fs : FS) (sourceFile destDir : Str) : Checked :=
  let sourceFileUrl := resolve env env.currentDir sourceFile
  if !(isFileUrlTruth fs sourceFileUrl).await then
    Checked.abort [[Part.invalid], [Part.text ("No such file ".toList ++ sourceFileUrl)]]
  else
    let destDirUrl :=
      if destDir ≠ [] then resolve env (dirname sourceFileUrl) destDir else dirname sourceFileUrl
    if destDir ≠ [] ∧ !(isDirUrlTruth fs destDirUrl).await then
      Checked.abort [[Part.invalid], [Part.text ("No such directory ".toList ++ destDirUrl)]]
    else
      let destFileName := basename (basename sourceFileUrl (some (extname sourceFileUrl)))
      let destFileUrl := resolve env destDirUrl destFileName
      if (isFileUrlTruth fs destFileUrl).await then
        Checked.abort [[Part.failed],
          [Part.text ("File ".toList ++ destFileUrl), Part.text " already exists".toList]]
      else Checked.go sourceFileUrl destFileUrl

/-- Lines 106-125 of `decompress`: the `try` / `catch` around the pipeline.
In the `catch`, line 122 tests the promise returned by `isFileUrlTruth`
itself (there is no `await`), then awaits `rm(destFileUrl)`; a rejection of
`rm` inside the `catch` rejects the promise of `decompress`. -/
def decompressRun (codec : Codec) (flt : Fault) (fs : FS) (sourceFileUrl destFileUrl : Str) :
    Outcome :=
  match pipeline codec.decompress flt fs sourceFileUrl destFileUrl with
  | (fs1, none) =>
    ⟨fs1, [[Part.text "Unpacking, wait please...".toList],
      [Part.text "Unpacking done: ".toList, Part.text destFileUrl]], Settled.resolved⟩
  | (fs1, some err) =>
    let log : List Message :=
      [[Part.text "Unpacking, wait please...".toList], [Part.failed], [Part.error err]]
    if (isFileUrlTruth fs1 destFileUrl).truthy then
      match rm fs1 destFileUrl with
      | (fs2, none) => ⟨fs2, log, Settled.resolved⟩
      | (fs2, some rmErr) => ⟨fs2, log, Settled.rejected rmErr⟩
    else ⟨fs1, log, Settled.resolved⟩

/-- The handler `decompress(sourceFile, destDir)`. -/
def decompress (codec : Codec) (flt : Fault) (env : Env) (fs : FS) (sourceFile : Str)
    (destDir : Str := []) : Outcome :=
  match decompressCheck env fs sourceFile destDir with
  | Checked.abort log => ⟨fs, log, Settled.resolved⟩
  | Checked.go sourceFileUrl destFileUrl => decompressRun codec flt fs sourceFileUrl destFileUrl

/-! ## Concrete data for the examples -/

/-- A small lossless codec for concrete runs: a one-byte header `7`, then the
bytes themselves. -/
def demoCodec : Codec where
  compress := fun b => 7 :: b
  decompress := fun b =>
    match b with
    | 7 :: rest => (rest, true)
    | _ => ([], false)

/-- An environment with current directory `/work`. -/
def workEnv : Env := ⟨"/work".toList, "home/user".toList⟩

/-- The bytes of `hello`. -/
def helloBytes : Bytes := [104, 101, 108, 108, 111]

/-- The filesystem with the listed entries and nothing else. -/
def fsOf : List (Str × Node) → FS
  | [] => fun _ => none
  | (k, n) :: rest => fun p => if p = k then some n else fsOf rest p

/-- Directory `/work` with the file `/work/notes.txt` = `hello`. -/
def notesFS : FS :=
  fsOf [("/work".toList, Node.dir), ("/work/notes.txt".toList, Node.file helloBytes)]

/-- As `notesFS`, with the directory `/work/archive`. -/
def archiveFS : FS :=
  fsOf [("/work".toList, Node.dir), ("/work/notes.txt".toList, Node.file helloBytes),
    ("/work/archive".toList, Node.dir)]

/-- As `notesFS`, with a file already at `/work/notes.txt.br`. -/
def takenFS : FS :=
  fsOf [("/work".toList, Node.dir), ("/work/notes.txt".toList, Node.file helloBytes),
    ("/work/notes.txt.br".toList, Node.file [7, 9])]

/-- Directory `/work` with the file `/work/data.br` and the directory
`/work/data`. -/
def clashFS : FS :=
  fsOf [("/work".toList, Node.dir), ("/work/data.br".toList, Node.file [7, 1, 2]),
    ("/work/data".toList, Node.dir)]

/-- Directory `/work` with the file `/work/junk.br`, which `demoCodec` does
not accept. -/
def junkFS : FS :=
  fsOf [("/work".toList, Node.dir), ("/work/junk.br".toList, Node.file [1, 2, 3])]

/-- Directories `/work` and `/work/sub` with the file `/work/sub/a.tar.gz`. -/
def subFS : FS :=
  fsOf [("/work".toList, Node.dir), ("/work/sub".toList, Node.dir),
    ("/work/sub/a.tar.gz".toList, Node.file [7, 1, 2])]

/-- Directory `/work` with the files `/work/.bashrc` and `/work/README`. -/
def plainFS : FS :=
  fsOf [("/work".toList, Node.dir), ("/work/.bashrc".toList, Node.file [7, 1]),
    ("/work/README".toList, Node.file [7, 2])]

/-! ## Normal forms of paths (used to state and prove the properties) -/

/-- A path segment that `normalizeString` keeps as it is: not empty, not `.`,
not `..`, without a separator. -/
def PlainSeg (s : Str) : Prop :=
  s ≠ [] ∧ s ≠ ['.'] ∧ s ≠ ['.', '.'] ∧ ∀ c ∈ s, isSlash c = false

/-- The absolute path with the given segments. -/
def absPath (segs : List Str) : Str := '/' :: joinSlash segs

/-- The segments `normalizeString` keeps for an absolute path. -/
def normSegs (path : Str) : List Str :=
  ((splitSlash path).foldl (normStep false) []).reverse

/-- The string `resolvedPath` that `path.resolve(a, b)` hands to
`normalizeString`. -/
def resolvedPath (env : Env) (a b : Str) : Str := (resolveLoop [b, a, env.procCwd] []).1

/-- The part of `resolvedPath` that comes from the first argument of
`path.resolve(a, b)` and from the process directory, when `b` is relative. -/
def basePrefix (env : Env) (a : Str) : Str :=
  match a with
  | [] => env.procCwd
  | c :: _ => if isSlash c then a else env.procCwd ++ '/' :: a

/-- The part of a file name before its last dot, if it has a dot. -/
def beforeLastDot : Str → Option Str
  | [] => none
  | c :: cs =>
    match beforeLastDot cs with
    | some p => some (c :: p)
    | none => if isDot c then some [] else none

/-- The spec's rule for the name of a decompressed file: the name with its
last extension segment removed, which is everything from the last dot on; a
name without a dot, or whose last dot opens it, has no extension and stays. -/
def stripLastExtension (name : Str) : Str :=
  match beforeLastDot name with
  | some (c :: cs) => c :: cs
  | _ => name

/-! ## Lemmas on splitting and joining -/

theorem splitSlash_ne_nil (p : Str) : splitSlash p ≠ [] := by
  cases p with
  | nil => simp [splitSlash]
  | cons c cs =>
    unfold splitSlash
    split
    · simp
    · split <;> simp

theorem splitSlash_cons_slash (c : Char) (cs : Str) (hc : isSlash c = true) :
    splitSlash (c :: cs) = [] :: splitSlash cs := by
  rw [splitSlash]; simp [hc]

theorem splitSlash_cons_other (c : Char) (cs s : Str) (ss : List Str) (hc : isSlash c = false)
    (hs : splitSlash cs = s :: ss) : splitSlash (c :: cs) = (c :: s) :: ss := by
  rw [splitSlash]; simp [hc, hs]

theorem splitSlash_append_slash (u v : Str) :
    splitSlash (u ++ '/' :: v) = splitSlash u ++ splitSlash v := by
  induction u with
  | nil =>
    rw [List.nil_append, splitSlash_cons_slash _ _ (by decide)]
    rfl
  | cons c cs ih =>
    rw [List.cons_append]
    cases hs : splitSlash cs with
    | nil => exact absurd hs (splitSlash_ne_nil cs)
    | cons s ss =>
      by_cases hc : isSlash c = true
      · rw [splitSlash_cons_slash _ _ hc, splitSlash_cons_slash _ _ hc, ih, hs]
        rfl
      · have hc2 : isSlash c = false := by simpa using hc
        rw [splitSlash_cons_other c cs s ss hc2 hs,
          splitSlash_cons_other c _ s (ss ++ splitSlash v) hc2 (by rw [ih, hs]; rfl)]
        rfl

theorem splitSlash_of_noSlash (s : Str) (h : ∀ c ∈ s, isSlash c = false) :
    splitSlash s = [s] := by
  induction s with
  | nil => rfl
  | cons c cs ih =>
    have hc : isSlash c = false := h c (List.mem_cons_self _ _)
    have hcs : ∀ d ∈ cs, isSlash d = false := fun d hd => h d (List.mem_cons_of_mem _ hd)
    unfold splitSlash
    simp [hc, ih hcs]

theorem splitSlash_noSlash (p : Str) : ∀ s ∈ splitSlash p, ∀ c ∈ s, isSlash c = false := by
  induction p with
  | nil => simp [splitSlash]
  | cons c cs ih =>
    unfold splitSlash
    by_cases hc : isSlash c = true
    · simp only [hc, if_true]
      intro s hs
      rcases List.mem_cons.mp hs with h | h
      · subst h; simp
      · exact ih s h
    · simp only [hc, Bool.false_eq_true, if_false]
      cases hs : splitSlash cs with
      | nil => exact absurd hs (splitSlash_ne_nil cs)
      | cons t ts =>
        rw [hs] at ih
        intro s hmem
        rcases List.mem_cons.mp hmem with h | h
        · subst h
          intro d hd
          rcases List.mem_cons.mp hd with h1 | h1
          · subst h1; simpa using hc
          · exact ih t (List.mem_cons_self _ _) d h1
        · exact ih s (List.mem_cons_of_mem _ h)

theorem joinSlash_cons_cons (s t : Str) (ts : List Str) :
    joinSlash (s :: t :: ts) = s ++ '/' :: joinSlash (t :: ts) := rfl

theorem joinSlash_snoc (init : List Str) (last : Str) :
    joinSlash (init ++ [last]) =
      match init with
      | [] => last
      | _ :: _ => joinSlash init ++ '/' :: last := by
  induction init with
  | nil => rfl
  | cons s ss ih =>
    cases ss with
    | nil => rfl
    | cons t ts =>
      have e : (s :: t :: ts) ++ [last] = s :: t :: (ts ++ [last]) := rfl
      have ih2 : joinSlash (t :: (ts ++ [last])) = joinSlash (t :: ts) ++ '/' :: last := ih
      simp only [e, joinSlash_cons_cons, ih2, List.append_assoc, List.cons_append]

theorem splitSlash_joinSlash (segs : List Str) (hne : segs ≠ [])
    (h : ∀ s ∈ segs, ∀ c ∈ s, isSlash c = false) : splitSlash (joinSlash segs) = segs := by
  induction segs with
  | nil => exact absurd rfl hne
  | cons s ss ih =>
    cases ss with
    | nil => simpa [joinSlash] using splitSlash_of_noSlash s (h s (List.mem_cons_self _ _))
    | cons t ts =>
      simp only [joinSlash]
      rw [splitSlash_append_slash, splitSlash_of_noSlash s (h s (List.mem_cons_self _ _))]
      rw [ih (by simp) (fun x hx => h x (List.mem_cons_of_mem _ hx))]
      rfl

/-! ## Lemmas on normalisation and `resolve` -/

theorem normStep_plain (stack : List Str) (seg : Str) (h : PlainSeg seg) :
    normStep false stack seg = seg :: stack := by
  unfold normStep
  simp [h.1, h.2.1, h.2.2.1]

theorem normStep_empty (stack : List Str) : normStep false stack [] = stack := by
  simp [normStep]

theorem foldl_normStep_plain (segs stack : List Str) (h : ∀ s ∈ segs, PlainSeg s) :
    segs.foldl (normStep false) stack = segs.reverse ++ stack := by
  induction segs generalizing stack with
  | nil => rfl
  | cons s ss ih =>
    rw [List.foldl_cons, normStep_plain stack s (h s (List.mem_cons_self _ _)),
      ih _ (fun x hx => h x (List.mem_cons_of_mem _ hx))]
    simp

theorem normStep_keeps_plain (stack : List Str) (seg : Str) (hs : ∀ s ∈ stack, PlainSeg s)
    (hseg : ∀ c ∈ seg, isSlash c = false) : ∀ s ∈ normStep false stack seg, PlainSeg s := by
  unfold normStep
  by_cases h1 : seg = [] ∨ seg = ['.']
  · simpa [h1] using hs
  · by_cases h2 : seg = ['.', '.']
    · simp only [h1, h2, if_false, if_true]
      cases stack with
      | nil => simp
      | cons top rest =>
        by_cases h3 : top = ['.', '.']
        · simpa [h3] using hs
        · simp only [h3, if_false]
          exact fun s hmem => hs s (List.mem_cons_of_mem _ hmem)
    · simp only [h1, h2, if_false]
      intro s hmem
      rcases List.mem_cons.mp hmem with h | h
      · subst h
        exact ⟨fun e => h1 (Or.inl e), fun e => h1 (Or.inr e), h2, hseg⟩
      · exact hs s h

theorem foldl_normStep_keeps_plain (segs stack : List Str) (hs : ∀ s ∈ stack, PlainSeg s)
    (hsegs : ∀ s ∈ segs, ∀ c ∈ s, isSlash c = false) :
    ∀ s ∈ segs.foldl (normStep false) stack, PlainSeg s := by
  induction segs generalizing stack with
  | nil => simpa using hs
  | cons t ts ih =>
    rw [List.foldl_cons]
    exact ih _ (normStep_keeps_plain stack t hs (hsegs t (List.mem_cons_self _ _)))
      (fun x hx => hsegs x (List.mem_cons_of_mem _ hx))

theorem normSegs_plain (p : Str) : ∀ s ∈ normSegs p, PlainSeg s := by
  intro s hs
  unfold normSegs at hs
  rw [List.mem_reverse] at hs
  exact foldl_normStep_keeps_plain (splitSlash p) [] (by simp) (splitSlash_noSlash p) s hs

theorem normSegs_absPath (segs : List Str) (h : ∀ s ∈ segs, PlainSeg s) :
    normSegs (absPath segs) = segs := by
  unfold normSegs absPath
  rw [splitSlash_cons_slash _ _ (by decide)]
  cases segs with
  | nil => simp [joinSlash, splitSlash, normStep]
  | cons s ss =>
    rw [splitSlash_joinSlash _ (by simp) (fun x hx => (h x hx).2.2.2), List.foldl_cons,
      normStep_empty, foldl_normStep_plain _ _ h]
    simp

theorem normSegs_append_slash (q : Str) : normSegs (q ++ ['/']) = normSegs q := by
  unfold normSegs
  rw [splitSlash_append_slash]
  simp [splitSlash, List.foldl_append, normStep_empty]

theorem normSegs_append_plain (q n : Str) (hn : PlainSeg n) :
    normSegs (q ++ '/' :: (n ++ ['/'])) = normSegs q ++ [n] := by
  unfold normSegs
  rw [splitSlash_append_slash, splitSlash_append_slash, splitSlash_of_noSlash n hn.2.2.2]
  simp [splitSlash, List.foldl_append, normStep_empty, normStep_plain _ _ hn]

theorem resolveLoop_absolute (env : Env) (a b : Str) :
    (resolveLoop [b, a, env.procCwd] []).2 = true := by
  cases b with
  | nil =>
    cases a with
    | nil => simp [resolveLoop, Env.procCwd, isSlash]
    | cons c cs =>
      by_cases hc : c = '/' <;> simp [resolveLoop, Env.procCwd, isSlash, hc]
  | cons d ds =>
    by_cases hd : d = '/'
    · simp [resolveLoop, isSlash, hd]
    · cases a with
      | nil => simp [resolveLoop, Env.procCwd, isSlash, hd]
      | cons c cs =>
        by_cases hc : c = '/' <;> simp [resolveLoop, Env.procCwd, isSlash, hc, hd]

theorem resolve_eq (env : Env) (a b : Str) :
    resolve env a b = absPath (normSegs (resolvedPath env a b)) := by
  have h := resolveLoop_absolute env a b
  unfold resolve resolveAll resolvedPath
  have e : [a, b].reverse ++ [env.procCwd] = [b, a, env.procCwd] := rfl
  rw [e]
  cases hr : resolveLoop [b, a, env.procCwd] [] with
  | mk p f =>
    rw [hr] at h
    simp only at h
    subst h
    rfl

/-- Every result of `path.resolve` is an absolute path of plain segments. -/
theorem resolve_normal (env : Env) (a b : Str) :
    ∃ segs, (∀ s ∈ segs, PlainSeg s) ∧ resolve env a b = absPath segs :=
  ⟨_, normSegs_plain _, resolve_eq env a b⟩

theorem resolvedPath_relative (env : Env) (a n : Str) (hne : n ≠ [])
    (hn : ∀ c ∈ n, isSlash c = false) :
    resolvedPath env a n = basePrefix env a ++ '/' :: (n ++ ['/']) := by
  cases n with
  | nil => exact absurd rfl hne
  | cons d ds =>
    have hd : d ≠ '/' := by simpa [isSlash] using hn d (List.mem_cons_self _ _)
    cases a with
    | nil => simp [resolvedPath, basePrefix, resolveLoop, Env.procCwd, isSlash, hd]
    | cons c cs =>
      by_cases hc : c = '/' <;>
        simp [resolvedPath, basePrefix, resolveLoop, Env.procCwd, isSlash, hc, hd]

theorem resolvedPath_empty (env : Env) (a : Str) :
    resolvedPath env a [] = basePrefix env a ++ ['/'] := by
  cases a with
  | nil => simp [resolvedPath, basePrefix, resolveLoop, Env.procCwd, isSlash]
  | cons c cs =>
    by_cases hc : c = '/' <;>
      simp [resolvedPath, basePrefix, resolveLoop, Env.procCwd, isSlash, hc]

theorem resolve_plain (env : Env) (a n : Str) (hn : PlainSeg n) :
    resolve env a n = absPath (normSegs (basePrefix env a) ++ [n]) := by
  rw [resolve_eq, resolvedPath_relative env a n hn.1 hn.2.2.2, normSegs_append_plain _ _ hn]

theorem basePrefix_absPath (env : Env) (segs : List Str) :
    basePrefix env (absPath segs) = absPath segs := by
  simp [basePrefix, absPath, isSlash]

theorem resolve_absPath_plain (env : Env) (init : List Str) (last : Str)
    (hi : ∀ s ∈ init, PlainSeg s) (hl : PlainSeg last) :
    resolve env (absPath init) last = absPath (init ++ [last]) := by
  rw [resolve_plain env _ _ hl, basePrefix_absPath, normSegs_absPath _ hi]

theorem resolve_absPath_empty (env : Env) (segs : List Str) (h : ∀ s ∈ segs, PlainSeg s) :
    resolve env (absPath segs) [] = absPath segs := by
  rw [resolve_eq, resolvedPath_empty, basePrefix_absPath, normSegs_append_slash,
    normSegs_absPath _ h]

/-! ## Lemmas on the components of a normal path -/

theorem dropWhile_of_all_false {α : Type} (p : α → Bool) (l : List α)
    (h : ∀ x ∈ l, p x = false) : l.dropWhile p = l := by
  cases l with
  | nil => rfl
  | cons a as => simp [h a (List.mem_cons_self _ _)]

theorem absPath_snoc (init : List Str) (last : Str) :
    ∃ pre : Str, absPath (init ++ [last]) = pre ++ '/' :: last := by
  cases init with
  | nil => exact ⟨[], rfl⟩
  | cons s ss =>
    refine ⟨absPath (s :: ss), ?_⟩
    unfold absPath
    rw [joinSlash_snoc]
    simp

theorem compRev_of_noSlash (x : Str) (hx : ∀ c ∈ x, isSlash c = false) :
    (x.reverse.dropWhile isSlash).takeWhile (fun c => !isSlash c) = x.reverse := by
  rw [dropWhile_of_all_false isSlash _ (fun c hc => hx c (List.mem_reverse.mp hc))]
  rw [List.takeWhile_eq_self_iff]
  intro c hc
  simp [hx c (List.mem_reverse.mp hc)]

theorem compRev_snoc (pre last : Str) (hne : last ≠ []) (hl : ∀ c ∈ last, isSlash c = false) :
    ((pre ++ '/' :: last).reverse.dropWhile isSlash).takeWhile (fun c => !isSlash c)
      = last.reverse := by
  have e : (pre ++ '/' :: last).reverse = last.reverse ++ '/' :: pre.reverse := by simp
  rw [e]
  have hd : (last.reverse ++ '/' :: pre.reverse).dropWhile isSlash
      = last.reverse ++ '/' :: pre.reverse := by
    cases hr : last.reverse with
    | nil => exact absurd (List.reverse_eq_nil_iff.mp hr) hne
    | cons x xs =>
      have hx : isSlash x = false := hl x (by rw [← List.mem_reverse, hr]; simp)
      simp [hx]
  rw [hd, List.takeWhile_append_of_pos (by
    intro a ha
    simp [hl a (List.mem_reverse.mp ha)])]
  simp [isSlash]

theorem lastComponent_snoc (pre last : Str) (hne : last ≠ [])
    (hl : ∀ c ∈ last, isSlash c = false) : lastComponent (pre ++ '/' :: last) = last := by
  unfold lastComponent
  rw [compRev_snoc pre last hne hl, List.reverse_reverse]

theorem lastComponent_of_noSlash (x : Str) (hx : ∀ c ∈ x, isSlash c = false) :
    lastComponent x = x := by
  unfold lastComponent
  rw [compRev_of_noSlash x hx, List.reverse_reverse]

theorem joinSlash_ne_nil (s : Str) (ss : List Str) (hs : s ≠ []) : joinSlash (s :: ss) ≠ [] := by
  cases ss with
  | nil => simpa [joinSlash] using hs
  | cons t ts => simp [joinSlash, hs]

theorem dirname_absPath_snoc (init : List Str) (last : Str) (hi : ∀ s ∈ init, PlainSeg s)
    (hl : PlainSeg last) : dirname (absPath (init ++ [last])) = absPath init := by
  have hl4 : ∀ c ∈ last.reverse, isSlash c = false := fun c hc => hl.2.2.2 c (List.mem_reverse.mp hc)
  unfold absPath dirname
  rw [joinSlash_snoc]
  cases init with
  | nil =>
    simp only
    rw [dropWhile_of_all_false isSlash _ hl4]
    have h0 : last.reverse.dropWhile (fun c => !isSlash c) = [] := by
      rw [List.dropWhile_eq_nil_iff]
      intro c hc
      simp [hl4 c hc]
    rw [h0]
    rfl
  | cons s ss =>
    simp only
    have e : (joinSlash (s :: ss) ++ '/' :: last).reverse
        = last.reverse ++ '/' :: (joinSlash (s :: ss)).reverse := by simp
    rw [e]
    have hd : (last.reverse ++ '/' :: (joinSlash (s :: ss)).reverse).dropWhile isSlash
        = last.reverse ++ '/' :: (joinSlash (s :: ss)).reverse := by
      cases hr : last.reverse with
      | nil => exact absurd (List.reverse_eq_nil_iff.mp hr) hl.1
      | cons x xs =>
        have hx : isSlash x = false := hl4 x (by rw [hr]; simp)
        simp [hx]
    rw [hd, List.dropWhile_append_of_pos (by
      intro a ha
      simp [hl4 a ha])]
    have hj := joinSlash_ne_nil s ss (hi s (List.mem_cons_self _ _)).1
    simp [isSlash, hj]

/-! ## Lemmas on extensions -/

theorem name_dot_cases (name : Str) :
    (∀ c ∈ name, isDot c = false) ∨
      ∃ p suf, name = p ++ '.' :: suf ∧ ∀ c ∈ suf, isDot c = false := by
  induction name with
  | nil => left; simp
  | cons c cs ih =>
    rcases ih with h | ⟨p, suf, e, hs⟩
    · by_cases hc : c = '.'
      · right
        exact ⟨[], cs, by simp [hc], h⟩
      · left
        intro d hd
        rcases List.mem_cons.mp hd with h1 | h1
        · subst h1; simpa [isDot] using hc
        · exact h d h1
    · right
      exact ⟨c :: p, suf, by simp [e], hs⟩

theorem beforeLastDot_of_noDot (name : Str) (h : ∀ c ∈ name, isDot c = false) :
    beforeLastDot name = none := by
  induction name with
  | nil => rfl
  | cons c cs ih =>
    rw [beforeLastDot, ih (fun d hd => h d (List.mem_cons_of_mem _ hd))]
    simp [h c (List.mem_cons_self _ _)]

theorem beforeLastDot_split (p suf : Str) (h : ∀ c ∈ suf, isDot c = false) :
    beforeLastDot (p ++ '.' :: suf) = some p := by
  induction p with
  | nil =>
    rw [List.nil_append, beforeLastDot, beforeLastDot_of_noDot suf h]
    simp [isDot]
  | cons c cs ih =>
    rw [List.cons_append, beforeLastDot, ih]

theorem extname_eq_of_compRev (path name : Str)
    (h : (path.reverse.dropWhile isSlash).takeWhile (fun c => !isSlash c) = name.reverse) :
    extname path =
      match name.reverse.dropWhile (fun c => !isDot c) with
      | [] => []
      | _ :: preRev =>
        if preRev = [] ∨ name.reverse = ['.', '.'] then []
        else '.' :: (name.reverse.takeWhile (fun c => !isDot c)).reverse := by
  unfold extname
  simp only [h]

theorem extname_of_noDot (path name : Str)
    (h : (path.reverse.dropWhile isSlash).takeWhile (fun c => !isSlash c) = name.reverse)
    (hn : ∀ c ∈ name, isDot c = false) : extname path = [] := by
  rw [extname_eq_of_compRev path name h]
  have h0 : name.reverse.dropWhile (fun c => !isDot c) = [] := by
    rw [List.dropWhile_eq_nil_iff]
    intro c hc
    simp [hn c (List.mem_reverse.mp hc)]
  rw [h0]

theorem dropWhile_notDot_split (p suf : Str) (hs : ∀ c ∈ suf, isDot c = false) :
    (p ++ '.' :: suf).reverse.dropWhile (fun c => !isDot c) = '.' :: p.reverse := by
  have e : (p ++ '.' :: suf).reverse = suf.reverse ++ '.' :: p.reverse := by simp
  rw [e, List.dropWhile_append_of_pos (by
    intro a ha
    simp [hs a (List.mem_reverse.mp ha)])]
  simp [isDot]

theorem takeWhile_notDot_split (p suf : Str) (hs : ∀ c ∈ suf, isDot c = false) :
    (p ++ '.' :: suf).reverse.takeWhile (fun c => !isDot c) = suf.reverse := by
  have e : (p ++ '.' :: suf).reverse = suf.reverse ++ '.' :: p.reverse := by simp
  rw [e, List.takeWhile_append_of_pos (by
    intro a ha
    simp [hs a (List.mem_reverse.mp ha)])]
  simp [isDot]

theorem extname_of_leadingDot (path suf : Str)
    (h : (path.reverse.dropWhile isSlash).takeWhile (fun c => !isSlash c)
      = ('.' :: suf).reverse)
    (hs : ∀ c ∈ suf, isDot c = false) : extname path = [] := by
  rw [extname_eq_of_compRev path ('.' :: suf) h]
  have h0 := dropWhile_notDot_split [] suf hs
  rw [List.nil_append] at h0
  rw [h0]
  simp

theorem extname_of_split (path p suf : Str)
    (h : (path.reverse.dropWhile isSlash).takeWhile (fun c => !isSlash c)
      = (p ++ '.' :: suf).reverse)
    (hs : ∀ c ∈ suf, isDot c = false) (hp : p ≠ []) (hdd : p ++ '.' :: suf ≠ ['.', '.']) :
    extname path = '.' :: suf := by
  rw [extname_eq_of_compRev path (p ++ '.' :: suf) h, dropWhile_notDot_split p suf hs,
    takeWhile_notDot_split p suf hs]
  have h1 : ¬ (p.reverse = []) := fun e => hp (List.reverse_eq_nil_iff.mp e)
  have h2 : ¬ ((p ++ '.' :: suf).reverse = ['.', '.']) := by
    intro e
    apply hdd
    have := congrArg List.reverse e
    simpa using this
  simp only [h1, h2, or_self, if_false, List.reverse_reverse]

theorem matchSuffix_append (s r : Str) : matchSuffix (s ++ r) s = SuffixMatch.matched r := by
  induction s with
  | nil => cases r <;> rfl
  | cons c cs ih => simp [matchSuffix, ih]

theorem basename_ext_of_split (path p suf : Str)
    (h : (path.reverse.dropWhile isSlash).takeWhile (fun c => !isSlash c)
      = (p ++ '.' :: suf).reverse)
    (hlen : suf.length + 1 < path.length) (hp : p ≠ []) :
    basename path (some ('.' :: suf)) = p := by
  unfold basename
  have hc1 : ('.' :: suf) ≠ [] ∧ ('.' :: suf).length ≤ path.length := by
    refine ⟨by simp, ?_⟩
    simp only [List.length_cons]
    omega
  have hc2 : ¬ (('.' :: suf) = path) := by
    intro e
    rw [← e] at hlen
    simp at hlen
  simp only [hc1, hc2, and_self, if_true, if_false, h]
  have e : (p ++ '.' :: suf).reverse = ('.' :: suf).reverse ++ p.reverse := by simp
  rw [e, matchSuffix_append]
  cases hr : p.reverse with
  | nil => exact absurd (List.reverse_eq_nil_iff.mp hr) hp
  | cons x xs =>
    simp only
    rw [← hr, List.reverse_reverse]
    simp

theorem basename_empty_suffix (path : Str) : basename path (some []) = lastComponent path := by
  simp [basename]

theorem noSlash_of_append_left (p q : Str) (h : ∀ c ∈ p ++ q, isSlash c = false) :
    ∀ c ∈ p, isSlash c = false :=
  fun c hc => h c (List.mem_append_left _ hc)

/-- On a path that ends in a plain segment, the file name the decompress
handler computes is that segment without its last extension. -/
theorem stem_snoc (pre last : Str) (hl : PlainSeg last) :
    basename (basename (pre ++ '/' :: last) (some (extname (pre ++ '/' :: last))))
      = stripLastExtension last := by
  have hcomp := compRev_snoc pre last hl.1 hl.2.2.2
  rcases name_dot_cases last with hnd | ⟨p, suf, e, hs⟩
  · rw [extname_of_noDot _ last hcomp hnd, basename_empty_suffix,
      lastComponent_snoc pre last hl.1 hl.2.2.2]
    unfold stripLastExtension
    rw [beforeLastDot_of_noDot last hnd]
    exact lastComponent_of_noSlash last hl.2.2.2
  · subst e
    unfold stripLastExtension
    rw [beforeLastDot_split p suf hs]
    cases p with
    | nil =>
      rw [List.nil_append] at hcomp hl ⊢
      rw [extname_of_leadingDot _ suf hcomp hs, basename_empty_suffix,
        lastComponent_snoc pre _ hl.1 hl.2.2.2]
      exact lastComponent_of_noSlash _ hl.2.2.2
    | cons c cs =>
      rw [extname_of_split _ (c :: cs) suf hcomp hs (by simp) hl.2.2.1]
      rw [basename_ext_of_split _ (c :: cs) suf hcomp (by simp; omega) (by simp)]
      exact lastComponent_of_noSlash _ (noSlash_of_append_left _ _ hl.2.2.2)

theorem extname_snoc (pre last : Str) (hl : PlainSeg last) :
    extname (pre ++ '/' :: last) = extname last := by
  rw [extname_eq_of_compRev _ last (compRev_snoc pre last hl.1 hl.2.2.2),
    extname_eq_of_compRev last last (compRev_of_noSlash last hl.2.2.2)]

/-- Shape of a normal absolute path: the root, or a prefix, a separator and a
plain last segment, with the directory part known. -/
theorem absPath_cases (segs : List Str) (h : ∀ s ∈ segs, PlainSeg s) :
    segs = [] ∨ ∃ init last pre, segs = init ++ [last] ∧ (∀ s ∈ init, PlainSeg s) ∧
      PlainSeg last ∧ absPath segs = pre ++ '/' :: last := by
  rcases List.eq_nil_or_concat segs with e | ⟨init, last, e⟩
  · exact Or.inl e
  · right
    rw [List.concat_eq_append] at e
    subst e
    obtain ⟨pre, hpre⟩ := absPath_snoc init last
    exact ⟨init, last, pre, rfl, fun s hs => h s (List.mem_append_left _ hs),
      h last (by simp), hpre⟩

/-- The destination name of `decompress`, on any resolved path. -/
theorem stem_resolved (segs : List Str) (h : ∀ s ∈ segs, PlainSeg s) :
    basename (basename (absPath segs) (some (extname (absPath segs))))
      = stripLastExtension (basename (absPath segs)) := by
  rcases absPath_cases segs h with e | ⟨init, last, pre, _, _, hl, hp⟩
  · subst e; decide
  · rw [hp, stem_snoc pre last hl]
    show stripLastExtension last = stripLastExtension (lastComponent (pre ++ '/' :: last))
    rw [lastComponent_snoc pre last hl.1 hl.2.2.2]

theorem extname_basename_resolved (segs : List Str) (h : ∀ s ∈ segs, PlainSeg s) :
    extname (basename (absPath segs)) = extname (absPath segs) := by
  rcases absPath_cases segs h with e | ⟨init, last, pre, _, _, hl, hp⟩
  · subst e; decide
  · rw [hp, extname_snoc pre last hl]
    show extname (lastComponent (pre ++ '/' :: last)) = extname last
    rw [lastComponent_snoc pre last hl.1 hl.2.2.2]

/-- Resolving the base name of a normal path against its directory gives the
path back. -/
theorem resolve_dirname_basename (env : Env) (segs : List Str) (h : ∀ s ∈ segs, PlainSeg s) :
    resolve env (dirname (absPath segs)) (basename (absPath segs)) = absPath segs := by
  rcases absPath_cases segs h with e | ⟨init, last, pre, e, hi, hl, hp⟩
  · subst e
    have h1 : dirname (absPath []) = absPath [] := by decide
    have h2 : basename (absPath []) = [] := by decide
    rw [h1, h2]
    exact resolve_absPath_empty env [] (by simp)
  · have hb : basename (absPath segs) = last := by
      show lastComponent (absPath segs) = last
      rw [hp, lastComponent_snoc pre last hl.1 hl.2.2.2]
    rw [hb, e, dirname_absPath_snoc init last hi hl, resolve_absPath_plain env init last hi hl]

/-! ## Lemmas on the filesystem, the checks and the pipeline -/

theorem isFile_await_iff (fs : FS) (u : Str) :
    (isFileUrlTruth fs u).await = true ↔ ∃ b, fs u = some (Node.file b) := by
  unfold isFileUrlTruth JsPromise.await
  cases h : fs u with
  | none => simp
  | some n => cases n <;> simp

theorem isFile_await_of_file (fs : FS) (u : Str) (b : Bytes) (h : fs u = some (Node.file b)) :
    (isFileUrlTruth fs u).await = true :=
  (isFile_await_iff fs u).mpr ⟨b, h⟩

theorem isFile_await_of_not_file (fs : FS) (u : Str) (h : ∀ b, fs u ≠ some (Node.file b)) :
    (isFileUrlTruth fs u).await = false := by
  cases hv : (isFileUrlTruth fs u).await with
  | false => rfl
  | true =>
    obtain ⟨b, hb⟩ := (isFile_await_iff fs u).mp hv
    exact absurd hb (h b)

theorem isDir_await_iff (fs : FS) (u : Str) :
    (isDirUrlTruth fs u).await = true ↔ fs u = some Node.dir := by
  unfold isDirUrlTruth JsPromise.await
  cases h : fs u with
  | none => simp
  | some n => cases n <;> simp

theorem pipeline_frame (t : Bytes → Bytes × Bool) (flt : Fault) (fs : FS) (src dest q : Str)
    (hq : q ≠ dest) : (pipeline t flt fs src dest).1 q = fs q := by
  unfold pipeline
  simp only
  split
  · split <;> simp [writeFile, hq]
  · split
    · split <;> simp [writeFile, hq]
    · rfl

theorem rm_frame (fs : FS) (p q : Str) (hq : q ≠ p) : (rm fs p).1 q = fs q := by
  unfold rm
  split <;> simp [removeFile, hq]

theorem rm_not_file (fs : FS) (p : Str) (c : Bytes) : (rm fs p).1 p ≠ some (Node.file c) := by
  unfold rm
  split
  · simp [removeFile]
  · rename_i h; simp [h]
  · rename_i h; simp [h]

/-- What passing the checks of `compress` means. -/
theorem compressCheck_go (env : Env) (fs : FS) (sourceFile destDir s d : Str)
    (h : compressCheck env fs sourceFile destDir = Checked.go s d) :
    s = resolve env env.currentDir sourceFile ∧ (∃ b, fs s = some (Node.file b)) ∧
      ∀ c, fs d ≠ some (Node.file c) := by
  unfold compressCheck at h
  simp only at h
  generalize (if destDir ≠ [] then resolve env env.currentDir destDir else env.currentDir) = D
    at h
  split at h
  · exact absurd h (by simp)
  · rename_i h1
    split at h
    · exact absurd h (by simp)
    · split at h
      · exact absurd h (by simp)
      · rename_i h3
        injection h with hs hd
        subst hs hd
        refine ⟨rfl, ?_, ?_⟩
        · exact (isFile_await_iff _ _).mp (by simpa using h1)
        · intro c hc
          exact h3 (isFile_await_of_file _ _ c hc)

/-- What passing the checks of `decompress` means. -/
theorem decompressCheck_go (env : Env) (fs : FS) (sourceFile destDir s d : Str)
    (h : decompressCheck env fs sourceFile destDir = Checked.go s d) :
    s = resolve env env.currentDir sourceFile ∧ (∃ b, fs s = some (Node.file b)) ∧
      ∀ c, fs d ≠ some (Node.file c) := by
  unfold decompressCheck at h
  simp only at h
  generalize (if destDir ≠ [] then resolve env (dirname (resolve env env.currentDir sourceFile))
    destDir else dirname (resolve env env.currentDir sourceFile)) = D at h
  split at h
  · exact absurd h (by simp)
  · rename_i h1
    split at h
    · exact absurd h (by simp)
    · split at h
      · exact absurd h (by simp)
      · rename_i h3
        injection h with hs hd
        subst hs hd
        refine ⟨rfl, ?_, ?_⟩
        · exact (isFile_await_iff _ _).mp (by simpa using h1)
        · intro c hc
          exact h3 (isFile_await_of_file _ _ c hc)

theorem go_dest_ne_source (fs : FS) (s d : Str) (hs : ∃ b, fs s = some (Node.file b))
    (hd : ∀ c, fs d ≠ some (Node.file c)) : d ≠ s := by
  intro e
  obtain ⟨b, hb⟩ := hs
  exact hd b (e ▸ hb)

theorem compressRun_frame (codec : Codec) (flt : Fault) (fs : FS) (s d q : Str) (hq : q ≠ d) :
    (compressRun codec flt fs s d).fs q = fs q := by
  have h := pipeline_frame (fun b => (codec.compress b, true)) flt fs s d q hq
  unfold compressRun
  split
  · rename_i fs1 heq; rw [heq] at h; exact h
  · rename_i fs1 err heq; rw [heq] at h; exact h

theorem decompressRun_frame (codec : Codec) (flt : Fault) (fs : FS) (s d q : Str) (hq : q ≠ d) :
    (decompressRun codec flt fs s d).fs q = fs q := by
  have h := pipeline_frame codec.decompress flt fs s d q hq
  unfold decompressRun
  split
  · rename_i fs1 heq; rw [heq] at h; exact h
  · rename_i fs1 err heq
    rw [heq] at h
    simp only [JsPromise.truthy, if_true]
    have hr := rm_frame fs1 d q hq
    split
    · rename_i fs2 heq2; rw [heq2] at hr; exact hr.trans h
    · rename_i fs2 e2 heq2; rw [heq2] at hr; exact hr.trans h

theorem compressCheck_missing (env : Env) (fs : FS) (sourceFile destDir : Str)
    (h : ∀ b, fs (resolve env env.currentDir sourceFile) ≠ some (Node.file b)) :
    compressCheck env fs sourceFile destDir = Checked.abort [[Part.failed],
      [Part.text ("No such file ".toList ++ resolve env env.currentDir sourceFile)]] := by
  unfold compressCheck
  simp only [isFile_await_of_not_file _ _ h, Bool.not_false, if_true]

theorem decompressCheck_missing (env : Env) (fs : FS) (sourceFile destDir : Str)
    (h : ∀ b, fs (resolve env env.currentDir sourceFile) ≠ some (Node.file b)) :
    decompressCheck env fs sourceFile destDir = Checked.abort [[Part.invalid],
      [Part.text ("No such file ".toList ++ resolve env env.currentDir sourceFile)]] := by
  unfold decompressCheck
  simp only [isFile_await_of_not_file _ _ h, Bool.not_false, if_true]

theorem compress_of_abort (codec : Codec) (flt : Fault) (env : Env) (fs : FS)
    (sourceFile destDir : Str) (log : List Message)
    (h : compressCheck env fs sourceFile destDir = Checked.abort log) :
    (compress codec flt env fs sourceFile destDir).log = log ∧
      (compress codec flt env fs sourceFile destDir).fs = fs ∧
      (compress codec flt env fs sourceFile destDir).settled = Settled.resolved := by
  unfold compress
  rw [h]
  exact ⟨rfl, rfl, rfl⟩

theorem decompress_of_abort (codec : Codec) (flt : Fault) (env : Env) (fs : FS)
    (sourceFile destDir : Str) (log : List Message)
    (h : decompressCheck env fs sourceFile destDir = Checked.abort log) :
    (decompress codec flt env fs sourceFile destDir).log = log ∧
      (decompress codec flt env fs sourceFile destDir).fs = fs ∧
      (decompress codec flt env fs sourceFile destDir).settled = Settled.resolved := by
  unfold decompress
  rw [h]
  exact ⟨rfl, rfl, rfl⟩

theorem compress_of_go (codec : Codec) (flt : Fault) (env : Env) (fs : FS)
    (sourceFile destDir s d : Str)
    (h : compressCheck env fs sourceFile destDir = Checked.go s d) :
    compress codec flt env fs sourceFile destDir = compressRun codec flt fs s d := by
  unfold compress
  rw [h]

theorem decompress_of_go (codec : Codec) (flt : Fault) (env : Env) (fs : FS)
    (sourceFile destDir s d : Str)
    (h : decompressCheck env fs sourceFile destDir = Checked.go s d) :
    decompress codec flt env fs sourceFile destDir = decompressRun codec flt fs s d := by
  unfold decompress
  rw [h]

/-- The checks of `compress` once the source exists and the directory test
passes: only the destination test is left. -/
theorem compressCheck_dest (env : Env) (fs : FS) (sourceFile destDir : Str) (b : Bytes)
    (hsrc : fs (resolve env env.currentDir sourceFile) = some (Node.file b))
    (hdir : destDir = [] ∨ fs (resolve env env.currentDir destDir) = some Node.dir) :
    compressCheck env fs sourceFile destDir =
      if (isFileUrlTruth fs (resolve env
          (if destDir ≠ [] then resolve env env.currentDir destDir else env.currentDir)
          (basename (resolve env env.currentDir sourceFile) ++ ".br".toList))).await then
        Checked.abort [[Part.failed],
          [Part.text ("File ".toList ++ resolve env
            (if destDir ≠ [] then resolve env env.currentDir destDir else env.currentDir)
            (basename (resolve env env.currentDir sourceFile) ++ ".br".toList)),
           Part.text " already exists".toList]]
      else Checked.go (resolve env env.currentDir sourceFile) (resolve env
          (if destDir ≠ [] then resolve env env.currentDir destDir else env.currentDir)
          (basename (resolve env env.currentDir sourceFile) ++ ".br".toList)) := by
  unfold compressCheck
  simp only [isFile_await_of_file _ _ b hsrc, Bool.not_true, Bool.false_eq_true, if_false]
  have hno : ¬ (destDir ≠ [] ∧ (!(isDirUrlTruth fs
      (if destDir ≠ [] then resolve env env.currentDir destDir else env.currentDir)).await)
        = true) := by
    rintro ⟨hne, hd⟩
    rcases hdir with e | e
    · exact hne e
    · rw [if_pos hne, (isDir_await_iff _ _).mpr e] at hd
      simp at hd
  rw [if_neg hno]

/-- The checks of `decompress` once the source exists and the directory test
passes: only the destination test is left. -/
theorem decompressCheck_dest (env : Env) (fs : FS) (sourceFile destDir : Str) (b : Bytes)
    (hsrc : fs (resolve env env.currentDir sourceFile) = some (Node.file b))
    (hdir : destDir = [] ∨
      fs (resolve env (dirname (resolve env env.currentDir sourceFile)) destDir)
        = some Node.dir) :
    decompressCheck env fs sourceFile destDir =
      if (isFileUrlTruth fs (resolve env
          (if destDir ≠ [] then
            resolve env (dirname (resolve env env.currentDir sourceFile)) destDir
           else dirname (resolve env env.currentDir sourceFile))
          (basename (basename (resolve env env.currentDir sourceFile)
            (some (extname (resolve env env.currentDir sourceFile))))))).await then
        Checked.abort [[Part.failed],
          [Part.text ("File ".toList ++ resolve env
            (if destDir ≠ [] then
              resolve env (dirname (resolve env env.currentDir sourceFile)) destDir
             else dirname (resolve env env.currentDir sourceFile))
            (basename (basename (resolve env env.currentDir sourceFile)
              (some (extname (resolve env env.currentDir sourceFile)))))),
           Part.text " already exists".toList]]
      else Checked.go (resolve env env.currentDir sourceFile) (resolve env
          (if destDir ≠ [] then
            resolve env (dirname (resolve env env.currentDir sourceFile)) destDir
           else dirname (resolve env env.currentDir sourceFile))
          (basename (basename (resolve env env.currentDir sourceFile)
            (some (extname (resolve env env.currentDir sourceFile)))))) := by
  unfold decompressCheck
  simp only [isFile_await_of_file _ _ b hsrc, Bool.not_true, Bool.false_eq_true, if_false]
  have hno : ¬ (destDir ≠ [] ∧ (!(isDirUrlTruth fs
      (if destDir ≠ [] then
        resolve env (dirname (resolve env env.currentDir sourceFile)) destDir
       else dirname (resolve env env.currentDir sourceFile))).await) = true) := by
    rintro ⟨hne, hd⟩
    rcases hdir with e | e
    · exact hne e
    · rw [if_pos hne, (isDir_await_iff _ _).mpr e] at hd
      simp at hd
  rw [if_neg hno]

theorem readFile_after_open (fs : FS) (s d : Str) (b : Bytes) (open' : Bool)
    (hs : fs s = some (Node.file b)) (hne : d ≠ s) :
    readFile (if open' = true then writeFile fs d [] else fs) s = some b := by
  cases open' <;> simp [readFile, writeFile, hs, Ne.symm hne]

/-- A pipeline whose transform rejects the source bytes fails, whatever else
goes wrong. -/
theorem pipeline_bad_input (t : Bytes → Bytes × Bool) (flt : Fault) (fs : FS) (s d : Str)
    (b : Bytes) (hs : fs s = some (Node.file b)) (hne : d ≠ s) (hbad : (t b).2 = false) :
    ∃ e, (pipeline t flt fs s d).2 = some e := by
  unfold pipeline
  simp only
  cases hrf : flt.readFails
  · simp only [Bool.false_eq_true, if_false, readFile_after_open fs s d b _ hs hne]
    split
    · split
      · exact ⟨_, rfl⟩
      · simp [hbad]
    · exact ⟨_, rfl⟩
  · simp

/-- A pipeline without faults, from an existing file to a path that is not a
directory: the destination holds the transformed bytes. -/
theorem pipeline_noFault (t : Bytes → Bytes × Bool) (fs : FS) (s d : Str) (b : Bytes)
    (hs : fs s = some (Node.file b)) (hne : d ≠ s) (hd : fs d ≠ some Node.dir) :
    (pipeline t noFault fs s d).1 d = some (Node.file (t b).1) ∧
      (pipeline t noFault fs s d).2 = (if (t b).2 then none else some Err.badInput) := by
  unfold pipeline
  simp only [noFault, Bool.not_false, Bool.true_and, decide_eq_true_eq, hd, not_false_eq_true,
    decide_True, Bool.false_eq_true, if_false, if_true, ne_eq]
  have hr : readFile (writeFile fs d []) s = some b := by
    simp [readFile, writeFile, hs, Ne.symm hne]
  rw [hr]
  simp [writeFile]

theorem compressRun_noFault (codec : Codec) (fs : FS) (s d : Str) (b : Bytes)
    (hs : fs s = some (Node.file b)) (hne : d ≠ s) (hd : fs d ≠ some Node.dir) :
    (compressRun codec noFault fs s d).fs d = some (Node.file (codec.compress b)) ∧
      (compressRun codec noFault fs s d).log =
        [[Part.text "Compressing, wait please...".toList],
          [Part.text "Compressing done: ".toList, Part.text d]] ∧
      (compressRun codec noFault fs s d).settled = Settled.resolved := by
  obtain ⟨h1, h2⟩ := pipeline_noFault (fun x => (codec.compress x, true)) fs s d b hs hne hd
  unfold compressRun
  split
  · rename_i fs1 heq
    rw [heq] at h1
    exact ⟨h1, rfl, rfl⟩
  · rename_i fs1 err heq
    rw [heq] at h2
    simp at h2

theorem decompressRun_noFault (codec : Codec) (fs : FS) (s d : Str) (b out : Bytes)
    (hs : fs s = some (Node.file b)) (hne : d ≠ s) (hd : fs d ≠ some Node.dir)
    (hdec : codec.decompress b = (out, true)) :
    (decompressRun codec noFault fs s d).fs d = some (Node.file out) ∧
      (decompressRun codec noFault fs s d).log =
        [[Part.text "Unpacking, wait please...".toList],
          [Part.text "Unpacking done: ".toList, Part.text d]] ∧
      (decompressRun codec noFault fs s d).settled = Settled.resolved := by
  obtain ⟨h1, h2⟩ := pipeline_noFault codec.decompress fs s d b hs hne hd
  rw [hdec] at h1 h2
  unfold decompressRun
  split
  · rename_i fs1 heq
    rw [heq] at h1
    exact ⟨h1, rfl, rfl⟩
  · rename_i fs1 err heq
    rw [heq] at h2
    simp at h2

theorem compressCheck_noDir (env : Env) (fs : FS) (sourceFile destDir : Str) (b : Bytes)
    (hsrc : fs (resolve env env.currentDir sourceFile) = some (Node.file b))
    (hne : destDir ≠ []) (hdir : fs (resolve env env.currentDir destDir) ≠ some Node.dir) :
    compressCheck env fs sourceFile destDir = Checked.abort [[Part.invalid],
      [Part.text ("No such directory ".toList ++ resolve env env.currentDir destDir)]] := by
  unfold compressCheck
  simp only [isFile_await_of_file _ _ b hsrc, Bool.not_true, Bool.false_eq_true, if_false,
    if_pos hne]
  have hd : (isDirUrlTruth fs (resolve env env.currentDir destDir)).await = false := by
    cases hv : (isDirUrlTruth fs (resolve env env.currentDir destDir)).await with
    | false => rfl
    | true => exact absurd ((isDir_await_iff _ _).mp hv) hdir
  rw [if_pos ⟨hne, by rw [hd]; rfl⟩]

/-- With an empty `destDir`, the destination `decompress` computes, in the
spec's terms. -/
theorem decompress_dest_empty (env : Env) (sourceFile : Str) :
    resolve env
        (if ([] : Str) ≠ [] then
          resolve env (dirname (resolve env env.currentDir sourceFile)) []
         else dirname (resolve env env.currentDir sourceFile))
        (basename (basename (resolve env env.currentDir sourceFile)
          (some (extname (resolve env env.currentDir sourceFile)))))
      = resolve env (dirname (resolve env env.currentDir sourceFile))
          (stripLastExtension (basename (resolve env env.currentDir sourceFile))) := by
  obtain ⟨segs, hp, he⟩ := resolve_normal env env.currentDir sourceFile
  rw [if_neg (by simp), he, stem_resolved segs hp]

theorem stripLastExtension_split (p suf : Str) (hp : p ≠ [])
    (hs : ∀ c ∈ suf, isDot c = false) : stripLastExtension (p ++ '.' :: suf) = p := by
  unfold stripLastExtension
  rw [beforeLastDot_split p suf hs]
  cases p with
  | nil => exact absurd rfl hp
  | cons c cs => rfl

theorem extname_name_of_noDot (name : Str) (hn : ∀ c ∈ name, isSlash c = false)
    (hd : ∀ c ∈ name, isDot c = false) : extname name = [] :=
  extname_of_noDot name name (compRev_of_noSlash name hn) hd

theorem extname_name_of_leadingDot (suf : Str) (hn : ∀ c ∈ suf, isSlash c = false)
    (hd : ∀ c ∈ suf, isDot c = false) : extname ('.' :: suf) = [] :=
  extname_of_leadingDot ('.' :: suf) suf
    (compRev_of_noSlash ('.' :: suf) (by
      intro c hc
      rcases List.mem_cons.mp hc with h | h
      · subst h; decide
      · exact hn c h)) hd

/-- With an extensionless source and an empty `destDir`, the destination
that `decompress` computes is the source path. -/
theorem decompress_dest_extensionless (env : Env) (sourceFile : Str)
    (hext : extname (basename (resolve env env.currentDir sourceFile)) = []) :
    resolve env
        (if ([] : Str) ≠ [] then
          resolve env (dirname (resolve env env.currentDir sourceFile)) []
         else dirname (resolve env env.currentDir sourceFile))
        (basename (basename (resolve env env.currentDir sourceFile)
          (some (extname (resolve env env.currentDir sourceFile)))))
      = resolve env env.currentDir sourceFile := by
  obtain ⟨segs, hp, he⟩ := resolve_normal env env.currentDir sourceFile
  rw [he] at hext ⊢
  rw [extname_basename_resolved segs hp] at hext
  rw [if_neg (by simp), hext, basename_empty_suffix]
  have hb : basename (lastComponent (absPath segs)) = basename (absPath segs) := by
    rcases absPath_cases segs hp with e | ⟨init, last, pre, _, _, hl, hq⟩
    · subst e; decide
    · show lastComponent (lastComponent (absPath segs)) = lastComponent (absPath segs)
      rw [hq, lastComponent_snoc pre last hl.1 hl.2.2.2,
        lastComponent_of_noSlash last hl.2.2.2]
  rw [hb]
  exact resolve_dirname_basename env segs hp

theorem plainSeg_br (n : Str) (hn : PlainSeg n) : PlainSeg (n ++ ".br".toList) := by
  obtain ⟨h1, _, _, h4⟩ := hn
  cases n with
  | nil => exact absurd rfl h1
  | cons c cs =>
    refine ⟨by simp, ?_, ?_, ?_⟩
    · intro e
      have := congrArg List.length e
      simp at this
    · intro e
      have := congrArg List.length e
      simp at this
    · intro x hx
      rcases List.mem_append.mp hx with h | h
      · exact h4 x h
      · have hx3 : x = '.' ∨ x = 'b' ∨ x = 'r' := by simpa using h
        rcases hx3 with e | e | e <;> subst e <;> decide

/-- The paths of the round trip of a plain file name `n` in the current
directory: the source, the archive `n.br` next to it, and the destinations the
two handlers compute. -/
theorem round_trip_paths (env : Env) (n : Str) (hn : PlainSeg n) :
    resolve env env.currentDir n ≠ resolve env env.currentDir (n ++ ".br".toList) ∧
    resolve env
        (if ([] : Str) ≠ [] then resolve env env.currentDir [] else env.currentDir)
        (basename (resolve env env.currentDir n) ++ ".br".toList)
      = resolve env env.currentDir (n ++ ".br".toList) ∧
    resolve env
        (if ([] : Str) ≠ [] then
          resolve env (dirname (resolve env env.currentDir (n ++ ".br".toList))) []
         else dirname (resolve env env.currentDir (n ++ ".br".toList)))
        (basename (basename (resolve env env.currentDir (n ++ ".br".toList))
          (some (extname (resolve env env.currentDir (n ++ ".br".toList))))))
      = resolve env env.currentDir n := by
  have hbr := plainSeg_br n hn
  have hS := normSegs_plain (basePrefix env env.currentDir)
  have e1 := resolve_plain env env.currentDir n hn
  have e2 := resolve_plain env env.currentDir _ hbr
  obtain ⟨pre1, hp1⟩ := absPath_snoc (normSegs (basePrefix env env.currentDir)) n
  obtain ⟨pre2, hp2⟩ := absPath_snoc (normSegs (basePrefix env env.currentDir))
    (n ++ ".br".toList)
  have hb1 : basename (resolve env env.currentDir n) = n := by
    show lastComponent _ = n
    rw [e1, hp1, lastComponent_snoc pre1 n hn.1 hn.2.2.2]
  have hb2 : basename (resolve env env.currentDir (n ++ ".br".toList)) = n ++ ".br".toList := by
    show lastComponent _ = _
    rw [e2, hp2, lastComponent_snoc pre2 _ hbr.1 hbr.2.2.2]
  refine ⟨?_, ?_, ?_⟩
  · intro e
    have hbb : basename (resolve env env.currentDir n)
        = basename (resolve env env.currentDir (n ++ ".br".toList)) := by rw [e]
    rw [hb1, hb2] at hbb
    have hlen := congrArg List.length hbb
    simp at hlen
  · rw [if_neg (by simp), hb1]
  · rw [decompress_dest_empty, hb2]
    have hst : stripLastExtension (n ++ ".br".toList) = n :=
      stripLastExtension_split n "br".toList hn.1 (by decide)
    rw [hst, e2, dirname_absPath_snoc _ _ hS hbr, resolve_absPath_plain env _ n hS hn, e1]

/-- The round trip of a plain file name in the current directory, without
faults: what `compress` leaves, the refusal of `decompress` while the
original is in place, and the result of `decompress` once it is gone. -/
theorem round_trip_general (codec : Codec) (env : Env) (fs : FS) (n : Str) (B : Bytes)
    (hn : PlainSeg n)
    (hfile : fs (resolve env env.currentDir n) = some (Node.file B))
    (habsent : fs (resolve env env.currentDir (n ++ ".br".toList)) = none) :
    ((compress codec noFault env fs n []).fs (resolve env env.currentDir (n ++ ".br".toList))
        = some (Node.file (codec.compress B)) ∧
      (compress codec noFault env fs n []).fs (resolve env env.currentDir n)
        = some (Node.file B) ∧
      (compress codec noFault env fs n []).log =
        [[Part.text "Compressing, wait please...".toList],
          [Part.text "Compressing done: ".toList,
            Part.text (resolve env env.currentDir (n ++ ".br".toList))]]) ∧
    (decompressCheck env (compress codec noFault env fs n []).fs (n ++ ".br".toList) []
        = Checked.abort [[Part.failed],
          [Part.text ("File ".toList ++ resolve env env.currentDir n),
            Part.text " already exists".toList]]) ∧
    (∀ out, codec.decompress (codec.compress B) = (out, true) →
      (decompress codec noFault env
          (removeFile (compress codec noFault env fs n []).fs (resolve env env.currentDir n))
          (n ++ ".br".toList) []).fs (resolve env env.currentDir n) = some (Node.file out) ∧
      (decompress codec noFault env
          (removeFile (compress codec noFault env fs n []).fs (resolve env env.currentDir n))
          (n ++ ".br".toList) []).log =
        [[Part.text "Unpacking, wait please...".toList],
          [Part.text "Unpacking done: ".toList, Part.text (resolve env env.currentDir n)]] ∧
      (decompress codec noFault env
          (removeFile (compress codec noFault env fs n []).fs (resolve env env.currentDir n))
          (n ++ ".br".toList) []).settled = Settled.resolved) := by
  obtain ⟨hne, hcd, hdd⟩ := round_trip_paths env n hn
  have hgo : compressCheck env fs n [] = Checked.go (resolve env env.currentDir n)
      (resolve env env.currentDir (n ++ ".br".toList)) := by
    rw [compressCheck_dest env fs n [] B hfile (Or.inl rfl), hcd,
      if_neg (by
        rw [isFile_await_of_not_file _ _ (by rw [habsent]; intro c hc; cases hc)]
        simp)]
  have hrun := compressRun_noFault codec fs _ _ B hfile (Ne.symm hne)
    (by rw [habsent]; intro c; cases c)
  have hkeep := compressRun_frame codec noFault fs (resolve env env.currentDir n)
    (resolve env env.currentDir (n ++ ".br".toList)) (resolve env env.currentDir n) hne
  rw [compress_of_go codec noFault env fs n [] _ _ hgo]
  refine ⟨⟨hrun.1, hkeep.trans hfile, hrun.2.1⟩, ?_, ?_⟩
  · rw [decompressCheck_dest env _ _ [] (codec.compress B) hrun.1 (Or.inl rfl), hdd,
      if_pos (isFile_await_of_file _ _ B (hkeep.trans hfile))]
  · intro out hdec
    have ha : removeFile (compressRun codec noFault fs (resolve env env.currentDir n)
        (resolve env env.currentDir (n ++ ".br".toList))).fs (resolve env env.currentDir n)
        (resolve env env.currentDir (n ++ ".br".toList))
        = some (Node.file (codec.compress B)) := by
      simp only [removeFile, if_neg (Ne.symm hne)]
      exact hrun.1
    have hg : removeFile (compressRun codec noFault fs (resolve env env.currentDir n)
        (resolve env env.currentDir (n ++ ".br".toList))).fs (resolve env env.currentDir n)
        (resolve env env.currentDir n) = none := by
      simp [removeFile]
    have hgo2 : decompressCheck env (removeFile (compressRun codec noFault fs
        (resolve env env.currentDir n) (resolve env env.currentDir (n ++ ".br".toList))).fs
        (resolve env env.currentDir n)) (n ++ ".br".toList) []
        = Checked.go (resolve env env.currentDir (n ++ ".br".toList))
          (resolve env env.currentDir n) := by
      rw [decompressCheck_dest env _ _ [] (codec.compress B) ha (Or.inl rfl), hdd,
        if_neg (by
          rw [isFile_await_of_not_file _ _ (by rw [hg]; intro c hc; cases hc)]
          simp)]
    rw [decompress_of_go codec noFault env _ _ [] _ _ hgo2]
    exact decompressRun_noFault codec _ _ _ (codec.compress B) out ha hne
      (by rw [hg]; intro c; cases c) hdec

/-- A pipeline whose destination cannot be opened, the source being readable:
nothing changes and the opening error is raised. -/
theorem pipeline_open_fails (t : Bytes → Bytes × Bool) (flt : Fault) (fs : FS) (s d : Str)
    (b : Bytes) (hs : fs s = some (Node.file b)) (hr : flt.readFails = false)
    (ho : flt.openFails = true ∨ fs d = some Node.dir) :
    pipeline t flt fs s d = (fs, some Err.openFailed) := by
  have hopen : (!flt.openFails && decide (fs d ≠ some Node.dir)) = false := by
    rcases ho with h | h
    · simp [h]
    · simp [h]
  unfold pipeline
  simp only [hopen, hr, Bool.false_eq_true, if_false]
  have hrd : readFile fs s = some b := by simp [readFile, hs]
  rw [hrd]

theorem decompressRun_open_fails (codec : Codec) (flt : Fault) (fs : FS) (s d : Str)
    (b : Bytes) (hs : fs s = some (Node.file b)) (hr : flt.readFails = false)
    (ho : flt.openFails = true ∨ fs d = some Node.dir) :
    decompressRun codec flt fs s d =
      match rm fs d with
      | (fs2, none) =>
        ⟨fs2, [[Part.text "Unpacking, wait please...".toList], [Part.failed],
          [Part.error Err.openFailed]], Settled.resolved⟩
      | (fs2, some rmErr) =>
        ⟨fs2, [[Part.text "Unpacking, wait please...".toList], [Part.failed],
          [Part.error Err.openFailed]], Settled.rejected rmErr⟩ := by
  unfold decompressRun
  rw [pipeline_open_fails codec.decompress flt fs s d b hs hr ho]
  simp only [JsPromise.truthy, if_true]

/-- A pipeline that cannot read its source, the destination being an existing
file: the destination has been truncated. -/
theorem pipeline_truncates (t : Bytes → Bytes × Bool) (fs : FS) (s d : Str) (old : Bytes)
    (hd : fs d = some (Node.file old)) :
    (pipeline t ⟨true, false, none⟩ fs s d).1 d = some (Node.file []) := by
  unfold pipeline
  simp [hd, writeFile]

/-- The promise of `compress` is never rejected. -/
theorem compress_resolves (codec : Codec) (flt : Fault) (env : Env) (fs : FS)
    (sourceFile destDir : Str) :
    (compress codec flt env fs sourceFile destDir).settled = Settled.resolved := by
  unfold compress
  split
  · rfl
  · unfold compressRun
    split <;> rfl

/-! ## The claims -/

/-- C3: when the source path, resolved against the current directory, is not
an existing regular file, `compress` reports the `failed` marker and
`decompress` the `invalid` marker, each followed by `No such file <resolved
path>`; the handler stops at this first check, nothing else is reported, the
filesystem is unchanged and the call completes normally. -/
theorem missing_source_reported (codec : Codec) (flt : Fault) (env : Env) (fs : FS)
    (sourceFile destDir : Str)
    (h : ∀ b, fs (resolve env env.currentDir sourceFile) ≠ some (Node.file b)) :
    (compressCheck env fs sourceFile destDir = Checked.abort [[Part.failed],
        [Part.text ("No such file ".toList ++ resolve env env.currentDir sourceFile)]] ∧
      (compress codec flt env fs sourceFile destDir).log = [[Part.failed],
        [Part.text ("No such file ".toList ++ resolve env env.currentDir sourceFile)]] ∧
      (compress codec flt env fs sourceFile destDir).fs = fs ∧
      (compress codec flt env fs sourceFile destDir).settled = Settled.resolved) ∧
    (decompressCheck env fs sourceFile destDir = Checked.abort [[Part.invalid],
        [Part.text ("No such file ".toList ++ resolve env env.currentDir sourceFile)]] ∧
      (decompress codec flt env fs sourceFile destDir).log = [[Part.invalid],
        [Part.text ("No such file ".toList ++ resolve env env.currentDir sourceFile)]] ∧
      (decompress codec flt env fs sourceFile destDir).fs = fs ∧
      (decompress codec flt env fs sourceFile destDir).settled = Settled.resolved) :=
  ⟨⟨compressCheck_missing env fs sourceFile destDir h,
      compress_of_abort codec flt env fs sourceFile destDir _
        (compressCheck_missing env fs sourceFile destDir h)⟩,
    ⟨decompressCheck_missing env fs sourceFile destDir h,
      decompress_of_abort codec flt env fs sourceFile destDir _
        (decompressCheck_missing env fs sourceFile destDir h)⟩⟩

/-- C3 at `/work` without `missing.txt`: both handlers name
`/work/missing.txt` and leave the filesystem alone. -/
theorem missing_source_reported_witness :
    notesFS "/work/missing.txt".toList = none ∧
    (compress demoCodec noFault workEnv notesFS "missing.txt".toList).log =
      [[Part.failed], [Part.text "No such file /work/missing.txt".toList]] ∧
    (compress demoCodec noFault workEnv notesFS "missing.txt".toList).fs = notesFS ∧
    (decompress demoCodec noFault workEnv notesFS "missing.txt".toList).log =
      [[Part.invalid], [Part.text "No such file /work/missing.txt".toList]] ∧
    (decompress demoCodec noFault workEnv notesFS "missing.txt".toList).fs = notesFS := by
  have hr : resolve workEnv workEnv.currentDir "missing.txt".toList
      = "/work/missing.txt".toList := by decide
  have hn : notesFS "/work/missing.txt".toList = none := by decide
  have h := missing_source_reported demoCodec noFault workEnv notesFS "missing.txt".toList []
    (by rw [hr, hn]; intro b hb; cases hb)
  rw [hr] at h
  exact ⟨hn, h.1.2.1, h.1.2.2.1, h.2.2.1, h.2.2.2.1⟩

/-- C2: when the checks before it pass (the source is an existing file, the
destination directory, if one is given, exists) and a file already exists at
the destination path the handler computes, `compress` (first part) and
`decompress` (second part) report the `failed` marker and then
`File <destination> already exists`, leave the whole filesystem as it was, and
complete normally; this holds for every codec and every pipeline fault, the
pipeline never being started. -/
theorem no_overwrite (codec : Codec) (flt : Fault) (env : Env) (fs : FS)
    (sourceFile destDir : Str) (b : Bytes)
    (hsrc : fs (resolve env env.currentDir sourceFile) = some (Node.file b)) :
    (∀ c : Bytes,
      (destDir = [] ∨ fs (resolve env env.currentDir destDir) = some Node.dir) →
      fs (resolve env
          (if destDir ≠ [] then resolve env env.currentDir destDir else env.currentDir)
          (basename (resolve env env.currentDir sourceFile) ++ ".br".toList))
        = some (Node.file c) →
      (compress codec flt env fs sourceFile destDir).log = [[Part.failed],
          [Part.text ("File ".toList ++ resolve env
            (if destDir ≠ [] then resolve env env.currentDir destDir else env.currentDir)
            (basename (resolve env env.currentDir sourceFile) ++ ".br".toList)),
           Part.text " already exists".toList]] ∧
        (compress codec flt env fs sourceFile destDir).fs = fs ∧
        (compress codec flt env fs sourceFile destDir).settled = Settled.resolved) ∧
    (∀ c : Bytes,
      (destDir = [] ∨
        fs (resolve env (dirname (resolve env env.currentDir sourceFile)) destDir)
          = some Node.dir) →
      fs (resolve env
          (if destDir ≠ [] then
            resolve env (dirname (resolve env env.currentDir sourceFile)) destDir
           else dirname (resolve env env.currentDir sourceFile))
          (basename (basename (resolve env env.currentDir sourceFile)
            (some (extname (resolve env env.currentDir sourceFile))))))
        = some (Node.file c) →
      (decompress codec flt env fs sourceFile destDir).log = [[Part.failed],
          [Part.text ("File ".toList ++ resolve env
            (if destDir ≠ [] then
              resolve env (dirname (resolve env env.currentDir sourceFile)) destDir
             else dirname (resolve env env.currentDir sourceFile))
            (basename (basename (resolve env env.currentDir sourceFile)
              (some (extname (resolve env env.currentDir sourceFile)))))),
           Part.text " already exists".toList]] ∧
        (decompress codec flt env fs sourceFile destDir).fs = fs ∧
        (decompress codec flt env fs sourceFile destDir).settled = Settled.resolved) := by
  constructor
  · intro c hdir hdest
    apply compress_of_abort
    rw [compressCheck_dest env fs sourceFile destDir b hsrc hdir,
      if_pos (isFile_await_of_file _ _ c hdest)]
  · intro c hdir hdest
    apply decompress_of_abort
    rw [decompressCheck_dest env fs sourceFile destDir b hsrc hdir,
      if_pos (isFile_await_of_file _ _ c hdest)]

/-- C2 at `/work` holding both `notes.txt` and `notes.txt.br`: compressing
`notes.txt` is refused because `/work/notes.txt.br` exists, and the file
there keeps its bytes. -/
theorem no_overwrite_witness :
    takenFS "/work/notes.txt".toList = some (Node.file helloBytes) ∧
    takenFS "/work/notes.txt.br".toList = some (Node.file [7, 9]) ∧
    (compress demoCodec noFault workEnv takenFS "notes.txt".toList).log =
      [[Part.failed],
        [Part.text "File /work/notes.txt.br".toList, Part.text " already exists".toList]] ∧
    (compress demoCodec noFault workEnv takenFS "notes.txt".toList).fs = takenFS := by
  have hr : resolve workEnv workEnv.currentDir "notes.txt".toList
      = "/work/notes.txt".toList := by decide
  have hd : resolve workEnv
      (if ([] : Str) ≠ [] then resolve workEnv workEnv.currentDir [] else workEnv.currentDir)
      (basename (resolve workEnv workEnv.currentDir "notes.txt".toList) ++ ".br".toList)
      = "/work/notes.txt.br".toList := by decide
  have hs : takenFS "/work/notes.txt".toList = some (Node.file helloBytes) := by decide
  have ht : takenFS "/work/notes.txt.br".toList = some (Node.file [7, 9]) := by decide
  have h := (no_overwrite demoCodec noFault workEnv takenFS "notes.txt".toList [] helloBytes
    (by rw [hr]; exact hs)).1 [7, 9] (Or.inl rfl) (by rw [hd]; exact ht)
  rw [hd] at h
  exact ⟨hs, ht, h.1, h.2.1⟩

/-- C6: the file at the resolved source path is never changed or removed.
After `compress` and after `decompress`, for every codec, every pipeline
fault and every argument pair, the source path holds exactly what it held
before the call (so an existing source file is still there with its bytes);
and whenever the checks pass, so that a pipeline is started or a removal can
follow, the destination path differs from the source path. -/
theorem source_never_changed (codec : Codec) (flt : Fault) (env : Env) (fs : FS)
    (sourceFile destDir : Str) :
    (compress codec flt env fs sourceFile destDir).fs (resolve env env.currentDir sourceFile)
        = fs (resolve env env.currentDir sourceFile) ∧
    (decompress codec flt env fs sourceFile destDir).fs (resolve env env.currentDir sourceFile)
        = fs (resolve env env.currentDir sourceFile) ∧
    (∀ s d, compressCheck env fs sourceFile destDir = Checked.go s d →
      s = resolve env env.currentDir sourceFile ∧ d ≠ s) ∧
    (∀ s d, decompressCheck env fs sourceFile destDir = Checked.go s d →
      s = resolve env env.currentDir sourceFile ∧ d ≠ s) := by
  have hc : ∀ s d, compressCheck env fs sourceFile destDir = Checked.go s d →
      s = resolve env env.currentDir sourceFile ∧ d ≠ s := by
    intro s d h
    obtain ⟨h1, h2, h3⟩ := compressCheck_go env fs sourceFile destDir s d h
    exact ⟨h1, go_dest_ne_source fs s d h2 h3⟩
  have hd : ∀ s d, decompressCheck env fs sourceFile destDir = Checked.go s d →
      s = resolve env env.currentDir sourceFile ∧ d ≠ s := by
    intro s d h
    obtain ⟨h1, h2, h3⟩ := decompressCheck_go env fs sourceFile destDir s d h
    exact ⟨h1, go_dest_ne_source fs s d h2 h3⟩
  refine ⟨?_, ?_, hc, hd⟩
  · cases hk : compressCheck env fs sourceFile destDir with
    | abort log => rw [(compress_of_abort codec flt env fs sourceFile destDir log hk).2.1]
    | go s d =>
      obtain ⟨h1, h2⟩ := hc s d hk
      rw [compress_of_go codec flt env fs sourceFile destDir s d hk, ← h1]
      exact compressRun_frame codec flt fs s d s (Ne.symm h2)
  · cases hk : decompressCheck env fs sourceFile destDir with
    | abort log => rw [(decompress_of_abort codec flt env fs sourceFile destDir log hk).2.1]
    | go s d =>
      obtain ⟨h1, h2⟩ := hd s d hk
      rw [decompress_of_go codec flt env fs sourceFile destDir s d hk, ← h1]
      exact decompressRun_frame codec flt fs s d s (Ne.symm h2)

/-- C6 at `/work` with `notes.txt` = `hello`: the checks of
`compress("notes.txt")` pass towards `/work/notes.txt.br`, another path, and
after the call `/work/notes.txt` still holds `hello`. -/
theorem source_never_changed_witness :
    compressCheck workEnv notesFS "notes.txt".toList []
      = Checked.go "/work/notes.txt".toList "/work/notes.txt.br".toList ∧
    "/work/notes.txt.br".toList ≠ "/work/notes.txt".toList ∧
    (compress demoCodec noFault workEnv notesFS "notes.txt".toList []).fs
      "/work/notes.txt".toList = some (Node.file helloBytes) := by
  have hr : resolve workEnv workEnv.currentDir "notes.txt".toList
      = "/work/notes.txt".toList := by decide
  have hgo : compressCheck workEnv notesFS "notes.txt".toList []
      = Checked.go "/work/notes.txt".toList "/work/notes.txt.br".toList := by decide
  have h := source_never_changed demoCodec noFault workEnv notesFS "notes.txt".toList []
  rw [hr] at h
  exact ⟨hgo, (h.2.2.1 _ _ hgo).2, h.1.trans (by decide)⟩

/-- C5: when the checks of `decompress` pass and the source bytes are not a
valid compressed stream, then for every pipeline fault the call reports the
`failed` marker followed by the error (after the progress message), no file
exists at the destination path at the end of the call, and every other path
holds what it held before. -/
theorem decompress_cleanup (codec : Codec) (flt : Fault) (env : Env) (fs : FS)
    (sourceFile destDir s d : Str) (b : Bytes)
    (hgo : decompressCheck env fs sourceFile destDir = Checked.go s d)
    (hb : fs s = some (Node.file b)) (hbad : (codec.decompress b).2 = false) :
    (∃ e, (decompress codec flt env fs sourceFile destDir).log =
      [[Part.text "Unpacking, wait please...".toList], [Part.failed], [Part.error e]]) ∧
    (∀ c, (decompress codec flt env fs sourceFile destDir).fs d ≠ some (Node.file c)) ∧
    (∀ q, q ≠ d → (decompress codec flt env fs sourceFile destDir).fs q = fs q) := by
  obtain ⟨_, h2, h3⟩ := decompressCheck_go env fs sourceFile destDir s d hgo
  have hne : d ≠ s := go_dest_ne_source fs s d h2 h3
  rw [decompress_of_go codec flt env fs sourceFile destDir s d hgo]
  refine ⟨?_, ?_, fun q hq => decompressRun_frame codec flt fs s d q hq⟩
  · obtain ⟨e, he⟩ := pipeline_bad_input codec.decompress flt fs s d b hb hne hbad
    refine ⟨e, ?_⟩
    unfold decompressRun
    split
    · rename_i fs1 heq; rw [heq] at he; cases he
    · rename_i fs1 err heq
      rw [heq] at he
      injection he with he
      subst he
      simp only [JsPromise.truthy, if_true]
      split <;> rfl
  · intro c
    obtain ⟨e, he⟩ := pipeline_bad_input codec.decompress flt fs s d b hb hne hbad
    unfold decompressRun
    split
    · rename_i fs1 heq; rw [heq] at he; cases he
    · rename_i fs1 err heq
      simp only [JsPromise.truthy, if_true]
      have hr := rm_not_file fs1 d c
      split
      · rename_i fs2 heq2; rw [heq2] at hr; exact hr
      · rename_i fs2 e2 heq2; rw [heq2] at hr; exact hr

/-- C5 at `/work` with `junk.br`, which is not compressed data: the failure
is reported, `/work/junk` does not exist afterwards and `/work/junk.br` is
as before. -/
theorem decompress_cleanup_witness :
    decompressCheck workEnv junkFS "junk.br".toList []
      = Checked.go "/work/junk.br".toList "/work/junk".toList ∧
    (demoCodec.decompress [1, 2, 3]).2 = false ∧
    (∃ e, (decompress demoCodec noFault workEnv junkFS "junk.br".toList []).log =
      [[Part.text "Unpacking, wait please...".toList], [Part.failed], [Part.error e]]) ∧
    (∀ c, (decompress demoCodec noFault workEnv junkFS "junk.br".toList []).fs
      "/work/junk".toList ≠ some (Node.file c)) ∧
    (decompress demoCodec noFault workEnv junkFS "junk.br".toList []).fs
      "/work/junk.br".toList = some (Node.file [1, 2, 3]) := by
  have hgo : decompressCheck workEnv junkFS "junk.br".toList []
      = Checked.go "/work/junk.br".toList "/work/junk".toList := by decide
  have hb : junkFS "/work/junk.br".toList = some (Node.file [1, 2, 3]) := by decide
  have h := decompress_cleanup demoCodec noFault workEnv junkFS "junk.br".toList []
    "/work/junk.br".toList "/work/junk".toList [1, 2, 3] hgo hb (by decide)
  exact ⟨hgo, by decide, h.1, h.2.1, (h.2.2 _ (by decide)).trans hb⟩

/-- C7: for an existing source file, the destination of `compress` is
`resolve(D, basename(source) + ".br")`, where `D` is the current directory
when `destDir` is empty and `resolve(currentDir, destDir)` when `destDir` is
given and is an existing directory: a file at that path makes the call stop
naming it, otherwise the checks pass towards it, and with nothing there and
no fault the compressed bytes are written there and the completion message
names it.  When `destDir` is given and is not an existing directory,
`compress` reports the `invalid` marker and `No such directory <path>` and
the filesystem is unchanged. -/
theorem compress_destination (codec : Codec) (flt : Fault) (env : Env) (fs : FS)
    (sourceFile destDir : Str) (b : Bytes)
    (hsrc : fs (resolve env env.currentDir sourceFile) = some (Node.file b)) :
    (∀ D dest : Str,
      (destDir = [] ∧ D = env.currentDir ∨
        destDir ≠ [] ∧ D = resolve env env.currentDir destDir ∧ fs D = some Node.dir) →
      dest = resolve env D
        (basename (resolve env env.currentDir sourceFile) ++ ".br".toList) →
      (∀ c, fs dest = some (Node.file c) →
        compressCheck env fs sourceFile destDir = Checked.abort [[Part.failed],
          [Part.text ("File ".toList ++ dest), Part.text " already exists".toList]]) ∧
      ((∀ c, fs dest ≠ some (Node.file c)) →
        compressCheck env fs sourceFile destDir =
          Checked.go (resolve env env.currentDir sourceFile) dest) ∧
      (fs dest = none →
        (compress codec noFault env fs sourceFile destDir).fs dest
          = some (Node.file (codec.compress b)) ∧
        (compress codec noFault env fs sourceFile destDir).log =
          [[Part.text "Compressing, wait please...".toList],
            [Part.text "Compressing done: ".toList, Part.text dest]])) ∧
    (destDir ≠ [] → fs (resolve env env.currentDir destDir) ≠ some Node.dir →
      (compress codec flt env fs sourceFile destDir).log = [[Part.invalid],
          [Part.text ("No such directory ".toList ++ resolve env env.currentDir destDir)]] ∧
        (compress codec flt env fs sourceFile destDir).fs = fs ∧
        (compress codec flt env fs sourceFile destDir).settled = Settled.resolved) := by
  constructor
  · intro D dest hD hdest
    have hdir : destDir = [] ∨ fs (resolve env env.currentDir destDir) = some Node.dir := by
      rcases hD with ⟨e, _⟩ | ⟨_, e, hd⟩
      · exact Or.inl e
      · exact Or.inr (e ▸ hd)
    have hDeq : (if destDir ≠ [] then resolve env env.currentDir destDir else env.currentDir)
        = D := by
      rcases hD with ⟨e, e2⟩ | ⟨hne, e, _⟩
      · rw [if_neg (by simpa using e), e2]
      · rw [if_pos hne, e]
    have hk := compressCheck_dest env fs sourceFile destDir b hsrc hdir
    rw [hDeq, ← hdest] at hk
    have hgo : (∀ c, fs dest ≠ some (Node.file c)) →
        compressCheck env fs sourceFile destDir =
          Checked.go (resolve env env.currentDir sourceFile) dest := by
      intro hno
      rw [hk, if_neg (by rw [isFile_await_of_not_file _ _ hno]; simp)]
    refine ⟨?_, hgo, ?_⟩
    · intro c hc
      rw [hk, if_pos (isFile_await_of_file _ _ c hc)]
    · intro hnone
      have hno : ∀ c, fs dest ≠ some (Node.file c) := by
        intro c hc
        rw [hnone] at hc
        cases hc
      rw [compress_of_go codec noFault env fs sourceFile destDir _ _ (hgo hno)]
      have h := compressRun_noFault codec fs _ dest b hsrc
        (go_dest_ne_source fs _ dest ⟨b, hsrc⟩ hno) (by rw [hnone]; intro c; cases c)
      exact ⟨h.1, h.2.1⟩
  · intro hne hdir
    exact compress_of_abort codec flt env fs sourceFile destDir _
      (compressCheck_noDir env fs sourceFile destDir b hsrc hne hdir)

/-- C7 at `/work`: `compress("notes.txt", "archive")` writes
`/work/archive/notes.txt.br` when `/work/archive` exists, and reports
`No such directory /work/archive` and changes nothing when it does not. -/
theorem compress_destination_witness :
    archiveFS "/work/notes.txt".toList = some (Node.file helloBytes) ∧
    archiveFS "/work/archive".toList = some Node.dir ∧
    (compress demoCodec noFault workEnv archiveFS "notes.txt".toList "archive".toList).fs
      "/work/archive/notes.txt.br".toList = some (Node.file (7 :: helloBytes)) ∧
    (compress demoCodec noFault workEnv archiveFS "notes.txt".toList "archive".toList).log =
      [[Part.text "Compressing, wait please...".toList],
        [Part.text "Compressing done: ".toList,
          Part.text "/work/archive/notes.txt.br".toList]] ∧
    notesFS "/work/archive".toList = none ∧
    (compress demoCodec noFault workEnv notesFS "notes.txt".toList "archive".toList).log =
      [[Part.invalid], [Part.text "No such directory /work/archive".toList]] ∧
    (compress demoCodec noFault workEnv notesFS "notes.txt".toList "archive".toList).fs
      = notesFS := by
  have hr : resolve workEnv workEnv.currentDir "notes.txt".toList
      = "/work/notes.txt".toList := by decide
  have hD : resolve workEnv workEnv.currentDir "archive".toList
      = "/work/archive".toList := by decide
  have hd : resolve workEnv "/work/archive".toList
      (basename "/work/notes.txt".toList ++ ".br".toList)
      = "/work/archive/notes.txt.br".toList := by decide
  have hs : archiveFS "/work/notes.txt".toList = some (Node.file helloBytes) := by decide
  have ha : archiveFS "/work/archive".toList = some Node.dir := by decide
  have hn : notesFS "/work/archive".toList = none := by decide
  have h1 := ((compress_destination demoCodec noFault workEnv archiveFS "notes.txt".toList
    "archive".toList helloBytes (by rw [hr]; exact hs)).1 "/work/archive".toList
    "/work/archive/notes.txt.br".toList
    (Or.inr ⟨by decide, hD.symm, ha⟩) (by rw [hr, hd])).2.2 (by decide)
  have h2 := (compress_destination demoCodec noFault workEnv notesFS "notes.txt".toList
    "archive".toList helloBytes (by rw [hr]; decide)).2 (by decide)
    (by rw [hD, hn]; intro c; cases c)
  rw [hD] at h2
  exact ⟨hs, ha, h1.1, h1.2, hn, h2.1, h2.2.1⟩

/-- C8: for an existing source file and an empty `destDir`, the destination
of `decompress` is `resolve(dirname(source), stem)`: the directory is the
source file's own directory, and `stem` is the source base name without its
last extension segment, whatever that extension is (`notes.txt.br` gives
`notes.txt`, `a.tar.gz` gives `a.tar`, and in general `p.suf` gives `p`).
If a file is at that path the call is refused naming it; otherwise the checks
pass towards it, and without faults the decompressed bytes are written
there. -/
theorem decompress_destination (codec : Codec) (env : Env) (fs : FS) (sourceFile : Str)
    (b : Bytes) (hsrc : fs (resolve env env.currentDir sourceFile) = some (Node.file b)) :
    (∀ dest : Str,
      dest = resolve env (dirname (resolve env env.currentDir sourceFile))
        (stripLastExtension (basename (resolve env env.currentDir sourceFile))) →
      ((∀ c, fs dest ≠ some (Node.file c)) →
        decompressCheck env fs sourceFile [] =
          Checked.go (resolve env env.currentDir sourceFile) dest) ∧
      (∀ c, fs dest = some (Node.file c) →
        decompressCheck env fs sourceFile [] = Checked.abort [[Part.failed],
          [Part.text ("File ".toList ++ dest), Part.text " already exists".toList]]) ∧
      (∀ out, fs dest = none → codec.decompress b = (out, true) →
        (decompress codec noFault env fs sourceFile []).fs dest = some (Node.file out))) ∧
    (∀ p suf : Str, p ≠ [] → (∀ c ∈ suf, isDot c = false) →
      stripLastExtension (p ++ '.' :: suf) = p) ∧
    stripLastExtension "notes.txt.br".toList = "notes.txt".toList ∧
    stripLastExtension "a.tar.gz".toList = "a.tar".toList := by
  refine ⟨?_, stripLastExtension_split, by decide, by decide⟩
  intro dest hdest
  have hk := decompressCheck_dest env fs sourceFile [] b hsrc (Or.inl rfl)
  rw [decompress_dest_empty env sourceFile, ← hdest] at hk
  have hgo : (∀ c, fs dest ≠ some (Node.file c)) →
      decompressCheck env fs sourceFile [] =
        Checked.go (resolve env env.currentDir sourceFile) dest := by
    intro hno
    rw [hk, if_neg (by rw [isFile_await_of_not_file _ _ hno]; simp)]
  refine ⟨hgo, ?_, ?_⟩
  · intro c hc
    rw [hk, if_pos (isFile_await_of_file _ _ c hc)]
  · intro out hnone hdec
    have hno : ∀ c, fs dest ≠ some (Node.file c) := by
      intro c hc
      rw [hnone] at hc
      cases hc
    rw [decompress_of_go codec noFault env fs sourceFile [] _ _ (hgo hno)]
    exact (decompressRun_noFault codec fs _ dest b out hsrc
      (go_dest_ne_source fs _ dest ⟨b, hsrc⟩ hno) (by rw [hnone]; intro c; cases c) hdec).1

/-- C8 at `/work` with the file `/work/sub/a.tar.gz`: `decompress("sub/a.tar.gz")`
writes `/work/sub/a.tar`, next to the source and not in `/work`. -/
theorem decompress_destination_witness :
    subFS "/work/sub/a.tar.gz".toList = some (Node.file [7, 1, 2]) ∧
    decompressCheck workEnv subFS "sub/a.tar.gz".toList [] =
      Checked.go "/work/sub/a.tar.gz".toList "/work/sub/a.tar".toList ∧
    (decompress demoCodec noFault workEnv subFS "sub/a.tar.gz".toList []).fs
      "/work/sub/a.tar".toList = some (Node.file [1, 2]) ∧
    (decompress demoCodec noFault workEnv subFS "sub/a.tar.gz".toList []).fs
      "/work/a.tar".toList = none := by
  have hr : resolve workEnv workEnv.currentDir "sub/a.tar.gz".toList
      = "/work/sub/a.tar.gz".toList := by decide
  have hd : resolve workEnv (dirname "/work/sub/a.tar.gz".toList)
      (stripLastExtension (basename "/work/sub/a.tar.gz".toList))
      = "/work/sub/a.tar".toList := by decide
  have hs : subFS "/work/sub/a.tar.gz".toList = some (Node.file [7, 1, 2]) := by decide
  have hn : subFS "/work/sub/a.tar".toList = none := by decide
  have h := (decompress_destination demoCodec workEnv subFS "sub/a.tar.gz".toList [7, 1, 2]
    (by rw [hr]; exact hs)).1 "/work/sub/a.tar".toList (by rw [hr, hd])
  rw [hr] at h
  refine ⟨hs, h.1 (by rw [hn]; intro c hc; cases hc), h.2.2 [1, 2] hn (by decide), ?_⟩
  rw [decompress_of_go demoCodec noFault workEnv subFS "sub/a.tar.gz".toList [] _ _
    (h.1 (by rw [hn]; intro c hc; cases hc))]
  exact (decompressRun_frame demoCodec noFault subFS _ _ "/work/a.tar".toList
    (by decide)).trans (by decide)

/-- C10: for an existing source file whose base name has no extension in the
sense of `path.extname` (which is the case for a name without a dot and for
a name whose only dot opens it, as `.bashrc`), `decompress` with an empty
`destDir` computes a destination equal to the source path; so for every
codec and fault it reports the `failed` marker and `File <source> already
exists`, stops at that check without starting the pipeline, and leaves the
filesystem unchanged. -/
theorem extensionless_in_place (codec : Codec) (flt : Fault) (env : Env) (fs : FS)
    (sourceFile : Str) (b : Bytes)
    (hsrc : fs (resolve env env.currentDir sourceFile) = some (Node.file b))
    (hext : extname (basename (resolve env env.currentDir sourceFile)) = []) :
    resolve env (dirname (resolve env env.currentDir sourceFile))
        (basename (basename (resolve env env.currentDir sourceFile)
          (some (extname (resolve env env.currentDir sourceFile)))))
      = resolve env env.currentDir sourceFile ∧
    decompressCheck env fs sourceFile [] = Checked.abort [[Part.failed],
      [Part.text ("File ".toList ++ resolve env env.currentDir sourceFile),
        Part.text " already exists".toList]] ∧
    (decompress codec flt env fs sourceFile []).log = [[Part.failed],
      [Part.text ("File ".toList ++ resolve env env.currentDir sourceFile),
        Part.text " already exists".toList]] ∧
    (decompress codec flt env fs sourceFile []).fs = fs ∧
    (decompress codec flt env fs sourceFile []).settled = Settled.resolved ∧
    (∀ name : Str, (∀ c ∈ name, isSlash c = false) → (∀ c ∈ name, isDot c = false) →
      extname name = []) ∧
    (∀ suf : Str, (∀ c ∈ suf, isSlash c = false) → (∀ c ∈ suf, isDot c = false) →
      extname ('.' :: suf) = []) := by
  have hd := decompress_dest_extensionless env sourceFile hext
  have hk : decompressCheck env fs sourceFile [] = Checked.abort [[Part.failed],
      [Part.text ("File ".toList ++ resolve env env.currentDir sourceFile),
        Part.text " already exists".toList]] := by
    rw [decompressCheck_dest env fs sourceFile [] b hsrc (Or.inl rfl), hd,
      if_pos (isFile_await_of_file _ _ b hsrc)]
  have ho := decompress_of_abort codec flt env fs sourceFile [] _ hk
  refine ⟨?_, hk, ho.1, ho.2.1, ho.2.2, extname_name_of_noDot, extname_name_of_leadingDot⟩
  rw [if_neg (by simp)] at hd
  exact hd

/-- C10 at `/work` with the file `/work/.bashrc`: `decompress(".bashrc")` is
refused because its destination is `/work/.bashrc` itself. -/
theorem extensionless_in_place_witness :
    plainFS "/work/.bashrc".toList = some (Node.file [7, 1]) ∧
    extname (basename "/work/.bashrc".toList) = [] ∧
    (decompress demoCodec noFault workEnv plainFS ".bashrc".toList []).log =
      [[Part.failed],
        [Part.text "File /work/.bashrc".toList, Part.text " already exists".toList]] ∧
    (decompress demoCodec noFault workEnv plainFS ".bashrc".toList []).fs = plainFS := by
  have hr : resolve workEnv workEnv.currentDir ".bashrc".toList
      = "/work/.bashrc".toList := by decide
  have hs : plainFS "/work/.bashrc".toList = some (Node.file [7, 1]) := by decide
  have he : extname (basename "/work/.bashrc".toList) = [] := by decide
  have h := extensionless_in_place demoCodec noFault workEnv plainFS ".bashrc".toList [7, 1]
    (by rw [hr]; exact hs) (by rw [hr]; exact he)
  rw [hr] at h
  exact ⟨hs, he, h.2.2.1, h.2.2.2.1⟩

/-- C1 (as amended): for a plain file name `n` with `cwd/n` an existing file
of bytes `B` and nothing at `cwd/n.br`, and a decompression transform that
inverts the compression transform, without faults: `compress(n)` writes the
compressed bytes to `cwd/n.br` and leaves `cwd/n`; `decompress(n + ".br")` is
then refused with `failed` and `File cwd/n already exists` and changes
nothing, because `cwd/n` is still there; once `cwd/n` has been removed, the
same call writes `cwd/n` with exactly the bytes `B`. -/
theorem round_trip_after_removal (codec : Codec) (env : Env) (fs : FS) (n : Str) (B : Bytes)
    (hn : PlainSeg n)
    (hfile : fs (resolve env env.currentDir n) = some (Node.file B))
    (habsent : fs (resolve env env.currentDir (n ++ ".br".toList)) = none)
    (hloss : ∀ x, codec.decompress (codec.compress x) = (x, true)) :
    ((compress codec noFault env fs n []).fs (resolve env env.currentDir (n ++ ".br".toList))
        = some (Node.file (codec.compress B)) ∧
      (compress codec noFault env fs n []).fs (resolve env env.currentDir n)
        = some (Node.file B) ∧
      (compress codec noFault env fs n []).log =
        [[Part.text "Compressing, wait please...".toList],
          [Part.text "Compressing done: ".toList,
            Part.text (resolve env env.currentDir (n ++ ".br".toList))]]) ∧
    ((decompress codec noFault env (compress codec noFault env fs n []).fs
          (n ++ ".br".toList) []).log = [[Part.failed],
        [Part.text ("File ".toList ++ resolve env env.currentDir n),
          Part.text " already exists".toList]] ∧
      (decompress codec noFault env (compress codec noFault env fs n []).fs
          (n ++ ".br".toList) []).fs = (compress codec noFault env fs n []).fs) ∧
    ((decompress codec noFault env
          (removeFile (compress codec noFault env fs n []).fs (resolve env env.currentDir n))
          (n ++ ".br".toList) []).fs (resolve env env.currentDir n) = some (Node.file B) ∧
      (decompress codec noFault env
          (removeFile (compress codec noFault env fs n []).fs (resolve env env.currentDir n))
          (n ++ ".br".toList) []).log =
        [[Part.text "Unpacking, wait please...".toList],
          [Part.text "Unpacking done: ".toList, Part.text (resolve env env.currentDir n)]] ∧
      (decompress codec noFault env
          (removeFile (compress codec noFault env fs n []).fs (resolve env env.currentDir n))
          (n ++ ".br".toList) []).settled = Settled.resolved) := by
  obtain ⟨h1, h2, h3⟩ := round_trip_general codec env fs n B hn hfile habsent
  have ha := decompress_of_abort codec noFault env _ _ [] _ h2
  exact ⟨h1, ⟨ha.1, ha.2.1⟩, h3 B (hloss B)⟩

/-- C1 (as amended) at `/work` with `notes.txt` = `hello`: after
`compress("notes.txt")` and the removal of `/work/notes.txt`,
`decompress("notes.txt.br")` gives `/work/notes.txt` = `hello` back. -/
theorem round_trip_after_removal_witness :
    PlainSeg "notes.txt".toList ∧
    notesFS "/work/notes.txt".toList = some (Node.file helloBytes) ∧
    notesFS "/work/notes.txt.br".toList = none ∧
    (∀ x, demoCodec.decompress (demoCodec.compress x) = (x, true)) ∧
    (compress demoCodec noFault workEnv notesFS "notes.txt".toList []).fs
      "/work/notes.txt.br".toList = some (Node.file (7 :: helloBytes)) ∧
    (decompress demoCodec noFault workEnv
      (removeFile (compress demoCodec noFault workEnv notesFS "notes.txt".toList []).fs
        "/work/notes.txt".toList)
      "notes.txt.br".toList []).fs "/work/notes.txt".toList = some (Node.file helloBytes) := by
  have hp : PlainSeg "notes.txt".toList := ⟨by decide, by decide, by decide, by decide⟩
  have hr : resolve workEnv workEnv.currentDir "notes.txt".toList
      = "/work/notes.txt".toList := by decide
  have hr2 : resolve workEnv workEnv.currentDir ("notes.txt".toList ++ ".br".toList)
      = "/work/notes.txt.br".toList := by decide
  have hs : notesFS "/work/notes.txt".toList = some (Node.file helloBytes) := by decide
  have hn : notesFS "/work/notes.txt.br".toList = none := by decide
  have h := round_trip_after_removal demoCodec workEnv notesFS "notes.txt".toList helloBytes
    hp (by rw [hr]; exact hs) (by rw [hr2]; exact hn) (fun _ => rfl)
  rw [hr, hr2] at h
  exact ⟨hp, hs, hn, fun _ => rfl, h.1.1, h.2.2.1⟩

/-- C1, as stated, fails at `/work` with `notes.txt` = `hello`: after
`compress("notes.txt")`, for no codec do the checks of
`decompress("notes.txt.br")` pass, so the call never writes its destination;
with the sample codec it reports `File /work/notes.txt already exists`. -/
theorem round_trip_in_place_refuted :
    (¬ ∃ codec : Codec, ∃ s d : Str,
      decompressCheck workEnv
        (compress codec noFault workEnv notesFS "notes.txt".toList []).fs
        "notes.txt.br".toList [] = Checked.go s d) ∧
    (decompress demoCodec noFault workEnv
        (compress demoCodec noFault workEnv notesFS "notes.txt".toList []).fs
        "notes.txt.br".toList []).log =
      [[Part.failed],
        [Part.text "File /work/notes.txt".toList, Part.text " already exists".toList]] := by
  constructor
  · rintro ⟨codec, s, d, h⟩
    have hg := (round_trip_general codec workEnv notesFS "notes.txt".toList helloBytes
      ⟨by decide, by decide, by decide, by decide⟩ (by decide) (by decide)).2.1
    have hcat : "notes.txt".toList ++ ".br".toList = "notes.txt.br".toList := by decide
    rw [hcat, h] at hg
    cases hg
  · decide

/-- C9 (as amended): the destination is opened with the default write flag,
which creates or truncates.  When a file exists at the destination path at
the moment a handler starts its pipeline (source an existing file, another
path), then without faults the open succeeds, no failure is reported and the
old contents are replaced by the output of the transform, for `compress` and,
on valid input, for `decompress`; and when the source then cannot be read the
old contents are lost all the same, the file being left empty. -/
theorem default_flag_overwrites (codec : Codec) (fs : FS) (s d : Str) (b old : Bytes)
    (hs : fs s = some (Node.file b)) (hd : fs d = some (Node.file old)) (hne : d ≠ s) :
    ((compressRun codec noFault fs s d).fs d = some (Node.file (codec.compress b)) ∧
      (compressRun codec noFault fs s d).log =
        [[Part.text "Compressing, wait please...".toList],
          [Part.text "Compressing done: ".toList, Part.text d]] ∧
      (compressRun codec noFault fs s d).settled = Settled.resolved) ∧
    (∀ out, codec.decompress b = (out, true) →
      (decompressRun codec noFault fs s d).fs d = some (Node.file out) ∧
      (decompressRun codec noFault fs s d).log =
        [[Part.text "Unpacking, wait please...".toList],
          [Part.text "Unpacking done: ".toList, Part.text d]] ∧
      (decompressRun codec noFault fs s d).settled = Settled.resolved) ∧
    (∀ t : Bytes → Bytes × Bool,
      (pipeline t ⟨true, false, none⟩ fs s d).1 d = some (Node.file [])) :=
  ⟨compressRun_noFault codec fs s d b hs hne (by rw [hd]; intro c; cases c),
    fun out hdec =>
      decompressRun_noFault codec fs s d b out hs hne (by rw [hd]; intro c; cases c) hdec,
    fun t => pipeline_truncates t fs s d old hd⟩

/-- C9 (as amended) at `/work` holding `notes.txt` and a file `notes.txt.br`:
the pipeline of `compress` replaces the bytes of `notes.txt.br`. -/
theorem default_flag_overwrites_witness :
    takenFS "/work/notes.txt".toList = some (Node.file helloBytes) ∧
    takenFS "/work/notes.txt.br".toList = some (Node.file [7, 9]) ∧
    (compressRun demoCodec noFault takenFS "/work/notes.txt".toList
      "/work/notes.txt.br".toList).fs "/work/notes.txt.br".toList
        = some (Node.file (7 :: helloBytes)) ∧
    (compressRun demoCodec noFault takenFS "/work/notes.txt".toList
      "/work/notes.txt.br".toList).settled = Settled.resolved := by
  have hs : takenFS "/work/notes.txt".toList = some (Node.file helloBytes) := by decide
  have ht : takenFS "/work/notes.txt.br".toList = some (Node.file [7, 9]) := by decide
  have h := default_flag_overwrites demoCodec takenFS "/work/notes.txt".toList
    "/work/notes.txt.br".toList helloBytes [7, 9] hs ht (by decide)
  exact ⟨hs, ht, h.1.1, h.1.2.2⟩

/-- C9, as stated, fails at `/work` holding `notes.txt` and a file
`notes.txt.br`: started with that file in place, the pipeline of `compress`
reports a failure for no codec, and with the sample codec it replaces the
bytes of `notes.txt.br`; likewise the pipeline of `decompress`, started from
`notes.txt.br` with `notes.txt` in place, reports completion and replaces the
bytes of `notes.txt`. -/
theorem exclusive_create_refuted :
    (¬ ∃ codec : Codec, ∃ e : Err,
      (compressRun codec noFault takenFS "/work/notes.txt".toList
        "/work/notes.txt.br".toList).log =
          [[Part.text "Compressing, wait please...".toList], [Part.failed], [Part.error e]]) ∧
    takenFS "/work/notes.txt.br".toList = some (Node.file [7, 9]) ∧
    (compressRun demoCodec noFault takenFS "/work/notes.txt".toList
      "/work/notes.txt.br".toList).fs "/work/notes.txt.br".toList
        = some (Node.file (7 :: helloBytes)) ∧
    takenFS "/work/notes.txt".toList = some (Node.file helloBytes) ∧
    (decompressRun demoCodec noFault takenFS "/work/notes.txt.br".toList
      "/work/notes.txt".toList).log =
        [[Part.text "Unpacking, wait please...".toList],
          [Part.text "Unpacking done: ".toList, Part.text "/work/notes.txt".toList]] ∧
    (decompressRun demoCodec noFault takenFS "/work/notes.txt.br".toList
      "/work/notes.txt".toList).fs "/work/notes.txt".toList = some (Node.file [9]) := by
  refine ⟨?_, by decide, by decide, by decide, by decide, by decide⟩
  rintro ⟨codec, e, h⟩
  have hl := (compressRun_noFault codec takenFS "/work/notes.txt".toList
    "/work/notes.txt.br".toList helloBytes (by decide) (by decide) (by decide)).2.1
  rw [hl] at h
  simp at h

/-- C4 fails on the code at `/work` holding the file `data.br` and the
directory `data`: the checks of `decompress("data.br")` pass (no file is at
the destination `/work/data`, so an awaited test would skip the removal),
the destination cannot be opened, and the removal that the `catch` block then
attempts is rejected, so the promise of `decompress` is rejected, for every
codec.  Likewise when the destination cannot be opened for an outside reason
and does not exist: `rm` rejects with a missing entry.  The promise of
`compress`, which has no cleanup, always resolves. -/
theorem decompress_cleanup_rejects (codec : Codec) :
    (∀ (flt : Fault) (env : Env) (fs : FS) (sourceFile destDir : Str),
      (compress codec flt env fs sourceFile destDir).settled = Settled.resolved) ∧
    decompressCheck workEnv clashFS "data.br".toList []
      = Checked.go "/work/data.br".toList "/work/data".toList ∧
    (isFileUrlTruth clashFS "/work/data".toList).await = false ∧
    (decompress codec noFault workEnv clashFS "data.br".toList []).log =
      [[Part.text "Unpacking, wait please...".toList], [Part.failed],
        [Part.error Err.openFailed]] ∧
    (decompress codec noFault workEnv clashFS "data.br".toList []).settled
      = Settled.rejected Err.rmIsDirectory ∧
    decompressCheck workEnv junkFS "junk.br".toList []
      = Checked.go "/work/junk.br".toList "/work/junk".toList ∧
    (decompress codec ⟨false, true, none⟩ workEnv junkFS "junk.br".toList []).settled
      = Settled.rejected Err.rmNoEntry := by
  have hgo : decompressCheck workEnv clashFS "data.br".toList []
      = Checked.go "/work/data.br".toList "/work/data".toList := by decide
  have hgo2 : decompressCheck workEnv junkFS "junk.br".toList []
      = Checked.go "/work/junk.br".toList "/work/junk".toList := by decide
  have hrun := decompressRun_open_fails codec noFault clashFS "/work/data.br".toList
    "/work/data".toList [7, 1, 2] (by decide) rfl (Or.inr (by decide))
  have hrm : rm clashFS "/work/data".toList = (clashFS, some Err.rmIsDirectory) := by
    have hd : clashFS "/work/data".toList = some Node.dir := by decide
    unfold rm
    rw [hd]
  have hrun2 := decompressRun_open_fails codec ⟨false, true, none⟩ junkFS
    "/work/junk.br".toList "/work/junk".toList [1, 2, 3] (by decide) rfl (Or.inl rfl)
  have hrm2 : rm junkFS "/work/junk".toList = (junkFS, some Err.rmNoEntry) := by
    have hd : junkFS "/work/junk".toList = none := by decide
    unfold rm
    rw [hd]
  rw [hrm] at hrun
  rw [hrm2] at hrun2
  rw [decompress_of_go codec noFault workEnv clashFS _ [] _ _ hgo,
    decompress_of_go codec _ workEnv junkFS _ [] _ _ hgo2, hrun, hrun2]
  exact ⟨compress_resolves codec, rfl, by decide, rfl, rfl, rfl, rfl⟩

end FileManager
